import Mathlib

/-!
# diskcache: a bounded, disk-backed key/value cache

A shallow embedding of `diskcache.go` and a verification of its store
operations (`Get`, `Set`), its start-up validation (`Start`) and its eviction
pass (`cleanup`).

* Go `int64` values are integers; arithmetic that can leave the 64-bit range
  (`TotalSize`, the running size of `cleanup`) wraps through `wrap64`.
* A `time.Time` is an instant with nanosecond resolution; `Unix()` is its whole
  number of seconds.
* The cache directory `c.Dir` is a tree: its entries are named nodes, a node
  being a regular file with its bytes and modification time or a subdirectory
  with its own entries.  `filepath.Join(c.Dir, fname)` addresses the entry of
  the root named `fname`, which is what it does for a plain file name.
* The operating-system and library calls of the source (`os.Chtimes`,
  `ioutil.ReadFile`, `ioutil.WriteFile`, `os.Remove`, `filepath.Walk`,
  `path.Base`) act on that tree.  The two calls whose error the source drops,
  `os.Chtimes` and `os.Remove`, take a flag that says whether the system
  refuses the call; access rights are not part of the state otherwise.
* `sort.Sort` is any function whose result is a permutation of the slice in
  ascending order for `Less` (`IsSortOf`); the insertion sort that Go runs on
  short slices is given for concrete evaluation.
-/

set_option autoImplicit false

namespace diskcache

/-! ## Machine integers and time -/

/-- Two's-complement wrap-around of a Go `int64` result. -/
def wrap64 (x : Int) : Int :=
  (x + 9223372036854775808) % 18446744073709551616 - 9223372036854775808

/-- A Go `time.Time`: nanoseconds since the Unix epoch. -/
structure Time where
  nanos : Int
  deriving DecidableEq, Repr

/-- Go `Time.Unix()`: seconds since the epoch, the nanoseconds dropped. -/
def Time.Unix (t : Time) : Int := t.nanos / 1000000000

/-- Go `Time.After(u)`: the instant `t` is later than `u`. -/
def Time.After (t u : Time) : Prop := u.nanos < t.nanos

instance (t u : Time) : Decidable (t.After u) := by
  unfold Time.After; infer_instance

/-! ## The cache directory and the operating-system calls -/

/-- A Go byte slice. -/
abbrev Bytes := List UInt8

/-- Errors of the operating system. -/
inductive OSError
  | ENOENT
  | EISDIR
  | EACCES
  | EPERM
  | ENOTEMPTY
  deriving DecidableEq, Repr

/-- Go `error` values produced by the package. -/
inductive Error
  | ErrNotFound
  | Errorf (msg : String)
  | os (e : OSError)
  deriving DecidableEq, Repr

/-- A node of the directory tree: a regular file, or a subdirectory with its
entries. -/
inductive Node
  | file (data : Bytes) (modTime : Time)
  | dir (modTime : Time) (children : List (String × Node))
  deriving Repr

/-- The entries of `c.Dir`: names with their nodes.  The first binding of a
name is the entry of that name. -/
abbrev FS := List (String × Node)

/-- The node is not a directory that holds entries. -/
def Node.isFlat : Node → Bool
  | .file _ _ => true
  | .dir _ [] => true
  | .dir _ (_ :: _) => false

/-- A plain file name: one path element, neither empty nor a dot name. -/
def PlainName (s : String) : Prop :=
  s ≠ "" ∧ s ≠ "." ∧ s ≠ ".." ∧ '/' ∉ s.data

instance (s : String) : Decidable (PlainName s) := by
  unfold PlainName; infer_instance

/-- The entry called `name`, if any (`os.Lstat`). -/
def stat : FS → String → Option Node
  | [], _ => none
  | (n, x) :: rest, name => if n = name then some x else stat rest name

/-- A node with its modification time replaced. -/
def Node.touch (t : Time) : Node → Node
  | .file d _ => .file d t
  | .dir _ ch => .dir t ch

/-- The effect of a call of `os.Chtimes` that the system accepts: the
modification time of an existing entry is set. -/
def setTimes : FS → String → Time → FS × Option OSError
  | [], _, _ => ([], some .ENOENT)
  | (n, x) :: rest, name, t =>
    if n = name then ((n, x.touch t) :: rest, none)
    else ((n, x) :: (setTimes rest name t).1, (setTimes rest name t).2)

/-- Go `os.Chtimes(p, t, t)`; `fails` says that the system refuses the call,
which then changes nothing. -/
def Chtimes (fails : Bool) (fs : FS) (name : String) (t : Time) : FS × Option OSError :=
  if fails then (fs, some .EPERM) else setTimes fs name t

/-- Go `ioutil.ReadFile(p)`: the whole contents of a regular file. -/
def ReadFile (fs : FS) (name : String) : Except OSError Bytes :=
  match stat fs name with
  | none => .error .ENOENT
  | some (.dir _ _) => .error .EISDIR
  | some (.file d _) => .ok d

/-- Go `ioutil.WriteFile(p, data, 0644)` at time `now`: creates the file or
truncates and rewrites it; a directory cannot be opened for writing. -/
def WriteFile : FS → Time → String → Bytes → FS × Option OSError
  | [], now, name, data => ([(name, .file data now)], none)
  | (n, x) :: rest, now, name, data =>
    if n = name then
      match x with
      | .file _ _ => ((n, .file data now) :: rest, none)
      | .dir _ _ => ((n, x) :: rest, some .EISDIR)
    else ((n, x) :: (WriteFile rest now name data).1, (WriteFile rest now name data).2)

/-- The effect of a call of `os.Remove` that the system accepts: a file or an
empty directory is unlinked; a directory that holds entries stays. -/
def unlink : FS → String → FS × Option OSError
  | [], _ => ([], some .ENOENT)
  | (n, x) :: rest, name =>
    if n = name then
      if x.isFlat then (rest, none) else ((n, x) :: rest, some .ENOTEMPTY)
    else ((n, x) :: (unlink rest name).1, (unlink rest name).2)

/-- Go `os.Remove(p)`; `fails` says that the system refuses the call, which
then changes nothing. -/
def Remove (fails : Bool) (fs : FS) (name : String) : FS × Option OSError :=
  if fails then (fs, some .EACCES) else unlink fs name

/-- Go `path.Base`: the last element of a slash-separated path. -/
def pathBase (path : String) : String :=
  if path = "" then "."
  else
    let stripped := (path.data.reverse.dropWhile (fun ch => ch = '/')).reverse
    let last := (stripped.reverse.takeWhile (fun ch => ch ≠ '/')).reverse
    if last = [] then "/" else String.mk last

/-- Go `os.FileInfo`. -/
structure FileInfo where
  Name : String
  ModTime : Time
  Size : Int
  IsDir : Bool
  deriving DecidableEq, Repr

/-- The `os.FileInfo` of an entry; `Name` is its base name.  The size of a
directory depends on the system and the callback of `cleanup` never reads it. -/
def fileInfo (name : String) : Node → FileInfo
  | .file d t => ⟨name, t, (d.length : Int), false⟩
  | .dir t _ => ⟨name, t, 0, true⟩

mutual
/-- The node at `path` and all that lies below it, each with its path from the
root and its `os.FileInfo`. -/
def visitNode (path : List String) (name : String) : Node → List (List String × FileInfo)
  | .file d t => [(path, ⟨name, t, (d.length : Int), false⟩)]
  | .dir t children => (path, ⟨name, t, 0, true⟩) :: visitEntries path children
/-- The entries of the directory at `parent` and all that lies below them. -/
def visitEntries (parent : List String) :
    List (String × Node) → List (List String × FileInfo)
  | [] => []
  | (n, x) :: rest => visitNode (parent ++ [n]) n x ++ visitEntries parent rest
end

/-- The loop of `filepath.Walk` over what it visits: the callback is called on
each, and the walk stops at the first error the callback returns. -/
def walkLoop {α : Type} (fn : α → Option FileInfo → Option OSError → α × Option Error) :
    List (List String × FileInfo) → α → α × Option Error
  | [], acc => (acc, none)
  | (_, info) :: rest, acc =>
    match fn acc (some info) none with
    | (acc1, none) => walkLoop fn rest acc1
    | (acc1, some e) => (acc1, some e)

/-- Go `filepath.Walk(c.Dir, fn)`: visits every file and directory of the
tree, a directory before its entries and the entries of a directory in lexical
order of their names, which is the lexical order of the paths.  The root, a
directory, is visited first; the callback of `cleanup` ignores directories. -/
def Walk {α : Type} (fs : FS)
    (fn : α → Option FileInfo → Option OSError → α × Option Error) (init : α) :
    α × Option Error :=
  walkLoop fn
    ((visitEntries [] fs).insertionSort
      (fun a b => a.1.map String.data ≤ b.1.map String.data)) init

/-! ## The package -/

/-- A buffered Go channel: its capacity and the number of values waiting. -/
structure Chan where
  capacity : Nat
  waiting : Nat
  deriving DecidableEq, Repr

/-- The struct `DiskCache`.  `CleanupSleep` is a `time.Duration` in
nanoseconds; `Shutdown` is `none` for a nil channel. -/
structure DiskCache where
  Dir : String
  MaxBytes : Int
  MaxFiles : Int
  CleanupSleep : Int
  Shutdown : Option Chan
  deriving DecidableEq, Repr

/-- Go `time.Second`. -/
def Second : Int := 1000000000

/-- The function `NewDiskCache`; `tempDir` is the value of `os.TempDir()`. -/
def NewDiskCache (tempDir : String) : DiskCache :=
  { Dir := tempDir
    MaxBytes := 1 <<< 20
    MaxFiles := 256
    CleanupSleep := 60 * Second
    Shutdown := none }

/-- What `Start` leaves behind: the cache value, the period of the ticker of
the goroutine it launched (`none` when no goroutine was launched) and the
error it returns. -/
structure StartResult where
  cache : DiskCache
  loop : Option Int
  err : Option Error
  deriving DecidableEq, Repr

/-- The method `DiskCache.Start`. -/
def DiskCache.Start (c : DiskCache) : StartResult :=
  if c.MaxBytes ≤ 0 then
    ⟨c, none, some (.Errorf "MaxBytes cannot be <= 0")⟩
  else if c.MaxFiles ≤ 0 then
    ⟨c, none, some (.Errorf "MaxFiles cannot be <= 0")⟩
  else if c.CleanupSleep ≤ 0 then
    ⟨c, none, some (.Errorf "CleanupSleep cannot be <= 0")⟩
  else
    ⟨{ c with Shutdown := some ⟨1, 0⟩ }, some c.CleanupSleep, none⟩

/-- What `Get` returns, with the directory it leaves behind.  `data` is
`none` for a nil slice. -/
structure GetResult where
  fs : FS
  data : Option Bytes
  err : Option Error
  deriving Repr

/-- The method `DiskCache.Get`, called at time `now`.  `chFails` says that the
system refuses its call of `os.Chtimes`, whose error the method drops. -/
def DiskCache.Get (_c : DiskCache) (chFails : Bool) (fs : FS) (now : Time)
    (fname : String) : GetResult :=
  let p := fname
  let fs1 := (Chtimes chFails fs p now).1
  match ReadFile fs1 p with
  | .error _ => ⟨fs1, none, some .ErrNotFound⟩
  | .ok b => ⟨fs1, some b, none⟩

/-- What `Set` returns, with the directory it leaves behind. -/
structure SetResult where
  fs : FS
  err : Option Error
  deriving Repr

/-- The method `DiskCache.Set`, called at time `now`. -/
def DiskCache.Set (_c : DiskCache) (fs : FS) (now : Time) (fname : String) (val : Bytes) :
    SetResult :=
  let p := fname
  let r := WriteFile fs now p val
  ⟨r.1, r.2.map Error.os⟩

/-- The struct `FData`. -/
structure FData where
  Path : String
  ModTime : Time
  Size : Int
  deriving DecidableEq, Repr

/-- The type `FDataList`. -/
abbrev FDataList := List FData

/-- The method `FDataList.Len`. -/
def FDataList.Len (f : FDataList) : Nat := f.length

/-- The method `FDataList.Less`: comparison of the whole seconds of the
modification times. -/
def FDataList.Less (f : FDataList) (i j : Nat) : Bool :=
  match f[i]?, f[j]? with
  | some a, some b => decide (a.ModTime.Unix < b.ModTime.Unix)
  | _, _ => false

/-- The method `FDataList.Swap`. -/
def FDataList.Swap (f : FDataList) (i j : Nat) : FDataList :=
  match f[i]?, f[j]? with
  | some a, some b => (f.set i b).set j a
  | _, _ => f

/-- The method `FDataList.TotalSize`: an `int64` accumulator. -/
def FDataList.TotalSize (f : FDataList) : Int :=
  f.foldl (fun ret f0 => wrap64 (ret + f0.Size)) 0

/-- The callback that `cleanup` passes to `filepath.Walk`. -/
def walkFn (files : FDataList) (info : Option FileInfo) (err : Option OSError) :
    FDataList × Option Error :=
  match err, info with
  | some _, _ => (files, none)
  | none, none => (files, none)
  | none, some i =>
    if i.IsDir then (files, none)
    else (files ++ [⟨pathBase i.Name, i.ModTime, i.Size⟩], none)

/-- What one pass of `cleanup` leaves behind: the directory, the entries
`files[i]` on which `os.Remove` was called, in order, and the returned error. -/
structure SweepResult where
  fs : FS
  attempts : FDataList
  err : Option Error
  deriving Repr

/-- The trimming loop of `cleanup` on the entries `files[i:]`, with the running
size `s` and count `fcount`.  `rmFails p` says that `os.Remove` fails on `p`;
its result is ignored by the source. -/
def trimLoop (c : DiskCache) (rmFails : String → Bool) :
    FDataList → Int → Int → FS → SweepResult
  | [], _, _, fs => ⟨fs, [], none⟩
  | f :: rest, s, fcount, fs =>
    if s > c.MaxBytes ∨ fcount > c.MaxFiles then
      let s1 := wrap64 (s - f.Size)
      let fs1 := (Remove (rmFails f.Path) fs f.Path).1
      let r := trimLoop c rmFails rest s1 (fcount - 1) fs1
      ⟨r.fs, f :: r.attempts, r.err⟩
    else ⟨fs, [], none⟩

/-- The second half of `cleanup`, from `sort.Sort(files)` on, for the collected
listing `files`.  `sort` is the effect of `sort.Sort` on the slice. -/
def DiskCache.sweep (c : DiskCache) (sort : FDataList → FDataList)
    (rmFails : String → Bool) (files : FDataList) (fs : FS) : SweepResult :=
  let sorted := sort files
  let s := FDataList.TotalSize sorted
  let fcount : Int := sorted.length
  trimLoop c rmFails sorted s fcount fs

/-- The method `DiskCache.cleanup`. -/
def DiskCache.cleanup (c : DiskCache) (sort : FDataList → FDataList)
    (rmFails : String → Bool) (fs : FS) : SweepResult :=
  match Walk fs walkFn [] with
  | (_, some _) => ⟨fs, [], none⟩
  | (files, none) => c.sweep sort rmFails files fs

/-- The insertion sort of Go's package `sort`, inner loop:
`for j := i; j > 0 && data.Less(j, j-1); j-- { data.Swap(j, j-1) }`. -/
def insertionSortInner : FDataList → Nat → FDataList
  | data, 0 => data
  | data, j + 1 =>
    if FDataList.Less data (j + 1) j then insertionSortInner (FDataList.Swap data (j + 1) j) j
    else data

/-- The insertion sort of Go's package `sort`, outer loop from index `i`, for
`todo` more elements. -/
def insertionSortOuter : FDataList → Nat → Nat → FDataList
  | data, _, 0 => data
  | data, i, todo + 1 => insertionSortOuter (insertionSortInner data i) (i + 1) todo

/-- The function `sort.Sort` on a short slice (fewer than seven elements), where every
version of Go's library runs its insertion sort and nothing else. -/
def insertionSort (data : FDataList) : FDataList :=
  insertionSortOuter data 1 (data.length - 1)

/-! ## Specification vocabulary -/

/-- The slice is in ascending order for `Less`: no later element is `Less`
than an earlier one. -/
def IsSorted (f : FDataList) : Prop :=
  ∀ j < f.length, ∀ i < j, FDataList.Less f j i = false

instance (f : FDataList) : Decidable (IsSorted f) := by
  unfold IsSorted; infer_instance

/-- The contract of `sort.Sort`: the result holds the same elements, in
ascending order for `Less`. -/
def IsSortOf (out inp : FDataList) : Prop :=
  out.Perm inp ∧ IsSorted out

instance (out inp : FDataList) : Decidable (IsSortOf out inp) := by
  unfold IsSortOf; infer_instance

/-- The true aggregate size of a listing, in bytes. -/
def sumSize (l : FDataList) : Int := (l.map FData.Size).sum

/-- The entries of the sorted listing on which the pass did not call
`os.Remove`. -/
def keptOf (sorted attempts : FDataList) : FDataList :=
  sorted.drop attempts.length

/-- The entries of a listing that are left when the files named by `attempts`
are gone. -/
def survivors (files attempts : FDataList) : FDataList :=
  files.filter (fun f => decide (f.Path ∉ attempts.map FData.Path))

/-- Both budgets hold for a set of entries. -/
def WithinBudget (c : DiskCache) (l : FDataList) : Prop :=
  sumSize l ≤ c.MaxBytes ∧ (l.length : Int) ≤ c.MaxFiles

instance (c : DiskCache) (l : FDataList) : Decidable (WithinBudget c l) := by
  unfold WithinBudget; infer_instance

/-- The number of entries on which the trimming loop calls `os.Remove`, from
the running size `s` and count `fcount`. -/
def evictCount (c : DiskCache) : FDataList → Int → Int → Nat
  | [], _, _ => 0
  | f :: rest, s, fcount =>
    if s > c.MaxBytes ∨ fcount > c.MaxFiles then
      evictCount c rest (wrap64 (s - f.Size)) (fcount - 1) + 1
    else 0

/-- Both budgets hold for a set of entries as the loop sees them: with the
size accumulated in an `int64`. -/
def SeenWithin (c : DiskCache) (l : FDataList) : Prop :=
  wrap64 (sumSize l) ≤ c.MaxBytes ∧ (l.length : Int) ≤ c.MaxFiles

/-- What the callback of `cleanup` collects for an `os.FileInfo`. -/
def infoData (i : FileInfo) : Option FData :=
  if i.IsDir then none else some ⟨pathBase i.Name, i.ModTime, i.Size⟩

/-- What the callback of `cleanup` collects for an entry of the root that is
not a directory with entries. -/
def entryData (e : String × Node) : Option FData :=
  match e.2 with
  | .file d t => some ⟨pathBase e.1, t, (d.length : Int)⟩
  | .dir _ _ => none

/-- The entry called `name` exists. -/
def present (fs : FS) (name : String) : Bool := (stat fs name).isSome

/-- The modification time of the entry called `name`. -/
def modTimeOf (fs : FS) (name : String) : Option Time :=
  match stat fs name with
  | some (.file _ t) => some t
  | some (.dir t _) => some t
  | none => none

/-- The regular files of the directory. -/
def IsFile (fs : FS) (name : String) : Prop :=
  ∃ d t, stat fs name = some (.file d t)

/-- A flat cache directory: the names of the entries are distinct path
elements, and every entry is a regular file or an empty subdirectory. -/
def FlatDir (fs : FS) : Prop :=
  (fs.map Prod.fst).Nodup ∧ ∀ e ∈ fs, PlainName e.1 ∧ e.2.isFlat = true

instance (fs : FS) : Decidable (FlatDir fs) := by
  unfold FlatDir; infer_instance


/-! ## The store: lemmas on the operating-system calls -/

theorem stat_setTimes_self (fs : FS) (k : String) (t : Time) :
    stat (setTimes fs k t).1 k = (stat fs k).map (Node.touch t) := by
  induction fs with
  | nil => simp [setTimes, stat]
  | cons e rest ih =>
    obtain ⟨n, x⟩ := e
    by_cases h : n = k
    · simp [setTimes, stat, h]
    · simp [setTimes, stat, h, ih]

theorem stat_setTimes_other (fs : FS) (k k' : String) (t : Time) (h : k ≠ k') :
    stat (setTimes fs k t).1 k' = stat fs k' := by
  induction fs with
  | nil => simp [setTimes, stat]
  | cons e rest ih =>
    obtain ⟨n, x⟩ := e
    by_cases h1 : n = k
    · subst h1
      simp [setTimes, stat, h]
    · by_cases h2 : n = k'
      · subst h2
        simp [setTimes, stat, h1]
      · simp [setTimes, stat, h1, h2, ih]

theorem stat_Chtimes_self (fails : Bool) (fs : FS) (k : String) (t : Time) :
    stat (Chtimes fails fs k t).1 k
      = if fails then stat fs k else (stat fs k).map (Node.touch t) := by
  cases fails
  · simp [Chtimes, stat_setTimes_self]
  · simp [Chtimes]

theorem stat_Chtimes_other (fails : Bool) (fs : FS) (k k' : String) (t : Time) (h : k ≠ k') :
    stat (Chtimes fails fs k t).1 k' = stat fs k' := by
  cases fails
  · simp [Chtimes, stat_setTimes_other fs k k' t h]
  · simp [Chtimes]

theorem stat_WriteFile_self (fs : FS) (now : Time) (k : String) (v : Bytes)
    (h : (WriteFile fs now k v).2 = none) :
    stat (WriteFile fs now k v).1 k = some (.file v now) := by
  induction fs with
  | nil => simp [WriteFile, stat]
  | cons e rest ih =>
    obtain ⟨n, x⟩ := e
    by_cases h1 : n = k
    · cases x with
      | file d t => simp [WriteFile, stat, h1]
      | dir t ch => simp [WriteFile, h1] at h
    · simp only [WriteFile, h1, if_false] at h ⊢
      simp [stat, h1, ih h]

theorem stat_WriteFile_other (fs : FS) (now : Time) (k k' : String) (v : Bytes) (h : k ≠ k') :
    stat (WriteFile fs now k v).1 k' = stat fs k' := by
  induction fs with
  | nil => simp [WriteFile, stat, h]
  | cons e rest ih =>
    obtain ⟨n, x⟩ := e
    by_cases h1 : n = k
    · subst h1
      cases x <;> simp [WriteFile, stat, h]
    · by_cases h2 : n = k'
      · subst h2
        simp [WriteFile, stat, h1]
      · simp [WriteFile, stat, h1, h2, ih]

theorem ReadFile_congr (fs fs1 : FS) (k : String) (h : stat fs1 k = stat fs k) :
    ReadFile fs1 k = ReadFile fs k := by
  simp [ReadFile, h]

theorem ReadFile_Chtimes_self (fails : Bool) (fs : FS) (k : String) (t : Time) :
    ReadFile (Chtimes fails fs k t).1 k = ReadFile fs k := by
  unfold ReadFile
  rw [stat_Chtimes_self]
  cases fails
  · cases h : stat fs k with
    | none => rfl
    | some x => cases x <;> rfl
  · rfl

theorem ReadFile_Chtimes (fails : Bool) (fs : FS) (k k' : String) (t : Time) :
    ReadFile (Chtimes fails fs k t).1 k' = ReadFile fs k' := by
  by_cases h : k = k'
  · subst h; exact ReadFile_Chtimes_self fails fs k t
  · exact ReadFile_congr _ _ _ (stat_Chtimes_other fails fs k k' t h)

theorem Get_eq (c : DiskCache) (chFails : Bool) (fs : FS) (now : Time) (k : String) :
    c.Get chFails fs now k =
      match ReadFile fs k with
      | .error _ => ⟨(Chtimes chFails fs k now).1, none, some .ErrNotFound⟩
      | .ok b => ⟨(Chtimes chFails fs k now).1, some b, none⟩ := by
  simp only [DiskCache.Get, ReadFile_Chtimes_self]

theorem Get_fs (c : DiskCache) (chFails : Bool) (fs : FS) (now : Time) (k : String) :
    (c.Get chFails fs now k).fs = (Chtimes chFails fs k now).1 := by
  rw [Get_eq]; cases ReadFile fs k <;> rfl

theorem stat_unlink_self (fs : FS) (k : String) (hnd : (fs.map Prod.fst).Nodup)
    (h : (unlink fs k).2 = none) : stat (unlink fs k).1 k = none := by
  induction fs with
  | nil => simp [unlink] at h
  | cons e rest ih =>
    obtain ⟨n, x⟩ := e
    simp only [List.map_cons, List.nodup_cons, List.mem_map, Prod.exists, exists_and_right,
      exists_eq_right, not_exists] at hnd
    by_cases h1 : n = k
    · subst h1
      by_cases hx : x.isFlat = true
      · simp only [unlink, if_true, hx]
        clear h ih
        obtain ⟨hnot, -⟩ := hnd
        induction rest with
        | nil => rfl
        | cons e2 rest2 ih2 =>
          obtain ⟨m, y⟩ := e2
          have hm : m ≠ n := by
            intro hm; subst hm; exact hnot y (List.mem_cons_self _ _)
          simp only [stat, hm, if_false]
          exact ih2 (fun z hz => hnot z (List.mem_cons_of_mem _ hz))
      · simp [unlink, hx] at h
    · simp only [unlink, if_false, h1] at h ⊢
      simp [stat, h1, ih hnd.2 h]

theorem stat_Remove_self (fs : FS) (k : String) (hnd : (fs.map Prod.fst).Nodup)
    (h : (Remove false fs k).2 = none) : stat (Remove false fs k).1 k = none := by
  simp only [Remove, Bool.false_eq_true, if_false] at h ⊢
  exact stat_unlink_self fs k hnd h

/-! ## The sweep: arithmetic and the trimming loop -/

theorem wrap64_of_range (x : Int) (h0 : -9223372036854775808 ≤ x)
    (h1 : x < 9223372036854775808) : wrap64 x = x := by
  unfold wrap64; omega

theorem wrap64_add_left (a b : Int) : wrap64 (wrap64 a + b) = wrap64 (a + b) := by
  unfold wrap64; omega

theorem wrap64_sub_left (a b : Int) : wrap64 (wrap64 a - b) = wrap64 (a - b) := by
  unfold wrap64; omega

theorem sumSize_cons (f : FData) (l : FDataList) : sumSize (f :: l) = f.Size + sumSize l := by
  simp [sumSize]

theorem foldl_TotalSize (l : FDataList) (a : Int) :
    l.foldl (fun ret f0 => wrap64 (ret + f0.Size)) (wrap64 a) = wrap64 (a + sumSize l) := by
  induction l generalizing a with
  | nil => simp [sumSize]
  | cons f rest ih =>
    rw [List.foldl_cons, wrap64_add_left, ih, sumSize_cons, add_assoc]

theorem TotalSize_eq (l : FDataList) : FDataList.TotalSize l = wrap64 (sumSize l) := by
  have h := foldl_TotalSize l 0
  have h0 : wrap64 0 = 0 := by decide
  rw [h0, zero_add] at h
  exact h

theorem trimLoop_attempts (c : DiskCache) (rmFails : String → Bool) (l : FDataList)
    (s fcount : Int) (fs : FS) :
    (trimLoop c rmFails l s fcount fs).attempts = l.take (evictCount c l s fcount) ∧
      (trimLoop c rmFails l s fcount fs).err = none := by
  induction l generalizing s fcount fs with
  | nil => simp [trimLoop, evictCount]
  | cons f rest ih =>
    by_cases h : s > c.MaxBytes ∨ fcount > c.MaxFiles
    · simp only [trimLoop, evictCount, h, if_true, List.take_succ_cons]
      exact ⟨by rw [(ih _ _ _).1], (ih _ _ _).2⟩
    · simp [trimLoop, evictCount, h]

theorem sweep_attempts (c : DiskCache) (sort : FDataList → FDataList)
    (rmFails : String → Bool) (files : FDataList) (fs : FS) :
    (c.sweep sort rmFails files fs).attempts =
      (sort files).take
        (evictCount c (sort files) (wrap64 (sumSize (sort files))) (sort files).length) ∧
      (c.sweep sort rmFails files fs).err = none := by
  unfold DiskCache.sweep
  simp only [TotalSize_eq]
  exact trimLoop_attempts c rmFails _ _ _ fs

theorem evictCount_spec (c : DiskCache) (l : FDataList) :
    evictCount c l (wrap64 (sumSize l)) l.length ≤ l.length ∧
    (∀ j, j < evictCount c l (wrap64 (sumSize l)) l.length → ¬ SeenWithin c (l.drop j)) ∧
    (evictCount c l (wrap64 (sumSize l)) l.length < l.length →
      SeenWithin c (l.drop (evictCount c l (wrap64 (sumSize l)) l.length))) := by
  induction l with
  | nil => simp [evictCount]
  | cons f rest ih =>
    have hs : wrap64 (wrap64 (sumSize (f :: rest)) - f.Size) = wrap64 (sumSize rest) := by
      rw [wrap64_sub_left, sumSize_cons]; congr 1; omega
    have hn : (((f :: rest).length : Nat) : Int) - 1 = (rest.length : Int) := by
      simp
    by_cases h : wrap64 (sumSize (f :: rest)) > c.MaxBytes ∨
        (((f :: rest).length : Nat) : Int) > c.MaxFiles
    · have hk : evictCount c (f :: rest) (wrap64 (sumSize (f :: rest))) (f :: rest).length
          = evictCount c rest (wrap64 (sumSize rest)) rest.length + 1 := by
        simp only [evictCount, h, if_true, hs, hn]
      rw [hk]
      obtain ⟨ih1, ih2, ih3⟩ := ih
      refine ⟨by simpa using ih1, ?_, ?_⟩
      · intro j hj
        cases j with
        | zero =>
          simp only [List.drop_zero, SeenWithin]
          omega
        | succ j =>
          simp only [List.drop_succ_cons]
          exact ih2 j (by omega)
      · intro hlt
        simp only [List.drop_succ_cons]
        exact ih3 (by simpa using hlt)
    · have hk : evictCount c (f :: rest) (wrap64 (sumSize (f :: rest))) (f :: rest).length
          = 0 := by
        simp only [evictCount, h, if_false]
      rw [hk]
      refine ⟨by simp, by simp, ?_⟩
      intro _
      simp only [List.drop_zero, SeenWithin]
      omega

theorem sumSize_drop_range (l : FDataList) (hnn : ∀ f ∈ l, 0 ≤ f.Size) (j : Nat) :
    0 ≤ sumSize (l.drop j) ∧ sumSize (l.drop j) ≤ sumSize l := by
  induction l generalizing j with
  | nil => simp [sumSize]
  | cons f rest ih =>
    have hf : 0 ≤ f.Size := hnn f (List.mem_cons_self _ _)
    have hrest : ∀ g ∈ rest, 0 ≤ g.Size := fun g hg => hnn g (List.mem_cons_of_mem _ hg)
    cases j with
    | zero =>
      have := ih hrest 0
      simp only [List.drop_zero, sumSize_cons] at this ⊢
      omega
    | succ j =>
      have := ih hrest j
      simp only [List.drop_succ_cons, sumSize_cons]
      omega

theorem seenWithin_iff (c : DiskCache) (l : FDataList) (hnn : ∀ f ∈ l, 0 ≤ f.Size)
    (hlt : sumSize l < 9223372036854775808) (j : Nat) :
    SeenWithin c (l.drop j) ↔ WithinBudget c (l.drop j) := by
  have h := sumSize_drop_range l hnn j
  unfold SeenWithin WithinBudget
  rw [wrap64_of_range _ (by omega) (by omega)]

theorem sumSize_perm {l1 l2 : FDataList} (h : l1.Perm l2) : sumSize l1 = sumSize l2 := by
  unfold sumSize
  exact (h.map FData.Size).sum_eq

/-! ## The sweep: order and survivors -/

theorem IsSorted.pairwise {f : FDataList} (h : IsSorted f) :
    f.Pairwise (fun a b => ¬ b.ModTime.Unix < a.ModTime.Unix) := by
  rw [List.pairwise_iff_getElem]
  intro i j hi hj hij
  have := h j hj i hij
  simpa [FDataList.Less, List.getElem?_eq_getElem hi, List.getElem?_eq_getElem hj] using this

theorem sorted_take_le_drop {f : FDataList} (h : IsSorted f) (k : Nat) :
    ∀ a ∈ f.take k, ∀ b ∈ f.drop k, a.ModTime.Unix ≤ b.ModTime.Unix := by
  have hp := h.pairwise
  rw [← List.take_append_drop k f, List.pairwise_append] at hp
  intro a ha b hb
  exact not_lt.mp (hp.2.2 a ha b hb)

theorem keptOf_take (S : FDataList) (k : Nat) (hk : k ≤ S.length) :
    keptOf S (S.take k) = S.drop k := by
  simp [keptOf, List.length_take, Nat.min_eq_left hk]

theorem survivors_sorted (S : FDataList) (k : Nat) (hnd : (S.map FData.Path).Nodup) :
    survivors S (S.take k) = S.drop k := by
  unfold survivors
  have hS : S.take k ++ S.drop k = S := List.take_append_drop k S
  rw [← hS, List.map_append, List.nodup_append] at hnd
  obtain ⟨-, -, hdis⟩ := hnd
  have h1 : (S.take k).filter (fun f => decide (f.Path ∉ (S.take k).map FData.Path)) = [] := by
    rw [List.filter_eq_nil_iff]
    intro a ha
    simp only [decide_eq_true_eq, not_not]
    exact List.mem_map_of_mem _ ha
  have h2 : (S.drop k).filter (fun f => decide (f.Path ∉ (S.take k).map FData.Path))
      = S.drop k := by
    rw [List.filter_eq_self]
    intro a ha
    simp only [decide_eq_true_eq]
    intro hin
    exact hdis hin (List.mem_map_of_mem _ ha)
  conv_lhs => rw [← hS]
  rw [List.filter_append, List.take_append_drop, h1, h2, List.nil_append]

theorem survivors_perm (files S : FDataList) (k : Nat) (hperm : S.Perm files)
    (hnd : (files.map FData.Path).Nodup) :
    (survivors files (S.take k)).Perm (S.drop k) := by
  have hndS : (S.map FData.Path).Nodup := ((hperm.map FData.Path).nodup_iff).mpr hnd
  rw [← survivors_sorted S k hndS]
  exact (hperm.filter _).symm

theorem size_le_sumSize (l : FDataList) (hnn : ∀ f ∈ l, 0 ≤ f.Size) :
    ∀ b ∈ l, b.Size ≤ sumSize l := by
  induction l with
  | nil => simp
  | cons f rest ih =>
    have hf : 0 ≤ f.Size := hnn f (List.mem_cons_self _ _)
    have hrest : ∀ g ∈ rest, 0 ≤ g.Size := fun g hg => hnn g (List.mem_cons_of_mem _ hg)
    have h0 := (sumSize_drop_range rest hrest 0).1
    simp only [List.drop_zero] at h0
    intro b hb
    rw [sumSize_cons]
    rcases List.mem_cons.mp hb with rfl | hb
    · omega
    · have := ih hrest b hb
      omega

/-- The count of evicted entries when the size accounting cannot wrap: the
least number of oldest entries whose removal brings both budgets within bounds,
or all of them. -/
theorem evictCount_least (c : DiskCache) (S : FDataList) (hnn : ∀ f ∈ S, 0 ≤ f.Size)
    (hfit : sumSize S < 9223372036854775808) :
    evictCount c S (wrap64 (sumSize S)) S.length ≤ S.length ∧
    (∀ j, j < evictCount c S (wrap64 (sumSize S)) S.length → ¬ WithinBudget c (S.drop j)) ∧
    (evictCount c S (wrap64 (sumSize S)) S.length < S.length →
      WithinBudget c (S.drop (evictCount c S (wrap64 (sumSize S)) S.length))) := by
  obtain ⟨h1, h2, h3⟩ := evictCount_spec c S
  refine ⟨h1, ?_, ?_⟩
  · intro j hj hw
    exact h2 j hj ((seenWithin_iff c S hnn hfit j).mpr hw)
  · intro hlt
    exact (seenWithin_iff c S hnn hfit _).mp (h3 hlt)

theorem withinBudget_nil (c : DiskCache) (hB : 0 ≤ c.MaxBytes) (hF : 0 ≤ c.MaxFiles) :
    WithinBudget c [] := by
  simp [WithinBudget, sumSize, hB, hF]

theorem withinBudget_perm (c : DiskCache) {l1 l2 : FDataList} (h : l1.Perm l2) :
    WithinBudget c l1 ↔ WithinBudget c l2 := by
  unfold WithinBudget
  rw [sumSize_perm h, h.length_eq]

theorem perm_nonneg {l1 l2 : FDataList} (h : l1.Perm l2) (hnn : ∀ f ∈ l2, 0 ≤ f.Size) :
    ∀ f ∈ l1, 0 ≤ f.Size :=
  fun f hf => hnn f (h.subset hf)


/-! ## The walk -/

theorem pathBase_plain (s : String) (h : PlainName s) : pathBase s = s := by
  obtain ⟨hne, -, -, hslash⟩ := h
  have hdata : s.data ≠ [] := by
    intro h0
    apply hne
    cases s
    simp_all
  have h1 : s.data.reverse.dropWhile (fun ch => decide (ch = '/')) = s.data.reverse := by
    cases hr : s.data.reverse with
    | nil => rfl
    | cons x xs =>
      have hx : x ∈ s.data := by
        rw [← List.mem_reverse, hr]; exact List.mem_cons_self _ _
      have hxne : x ≠ '/' := fun hx2 => hslash (hx2 ▸ hx)
      simp [List.dropWhile, hxne]
  have h2 : s.data.reverse.takeWhile (fun ch => decide (ch ≠ '/')) = s.data.reverse := by
    rw [List.takeWhile_eq_self_iff]
    intro x hx
    have hx1 : x ∈ s.data := List.mem_reverse.mp hx
    have hxne : x ≠ '/' := fun hx2 => hslash (hx2 ▸ hx1)
    simpa using hxne
  unfold pathBase
  simp only [hne, if_false, h1, List.reverse_reverse, h2, hdata]

theorem walkLoop_walkFn (l : List (List String × FileInfo)) (acc : FDataList) :
    walkLoop walkFn l acc = (acc ++ l.filterMap (fun p => infoData p.2), none) := by
  induction l generalizing acc with
  | nil => simp [walkLoop]
  | cons p rest ih =>
    obtain ⟨path, info⟩ := p
    by_cases hd : info.IsDir = true
    · simp [walkLoop, walkFn, infoData, hd, ih]
    · simp [walkLoop, walkFn, infoData, hd, ih]

theorem Walk_walkFn (fs : FS) :
    Walk fs walkFn [] =
      ((((visitEntries [] fs).insertionSort
          (fun a b => a.1.map String.data ≤ b.1.map String.data))).filterMap
        (fun p => infoData p.2), none) := by
  unfold Walk
  rw [walkLoop_walkFn, List.nil_append]

theorem cleanup_eq_sweep (c : DiskCache) (sort : FDataList → FDataList)
    (rmFails : String → Bool) (fs : FS) :
    c.cleanup sort rmFails fs = c.sweep sort rmFails (Walk fs walkFn []).1 fs := by
  unfold DiskCache.cleanup
  rw [Walk_walkFn]

theorem visitEntries_flat (parent : List String) (fs : FS)
    (hflat : ∀ e ∈ fs, e.2.isFlat = true) :
    visitEntries parent fs = fs.map (fun e => (parent ++ [e.1], fileInfo e.1 e.2)) := by
  induction fs with
  | nil => simp [visitEntries]
  | cons e rest ih =>
    obtain ⟨n, x⟩ := e
    have hx : x.isFlat = true := hflat (n, x) (List.mem_cons_self _ _)
    have ih1 := ih (fun e he => hflat e (List.mem_cons_of_mem _ he))
    cases x with
    | file d t => simp [visitEntries, visitNode, fileInfo, ih1]
    | dir t ch =>
      cases ch with
      | nil => simp [visitEntries, visitNode, fileInfo, ih1]
      | cons p ps => simp [Node.isFlat] at hx

theorem infoData_fileInfo (n : String) (x : Node) :
    infoData (fileInfo n x) = entryData (n, x) := by
  cases x <;> simp [infoData, fileInfo, entryData]

theorem listing_perm (fs : FS) (hflat : ∀ e ∈ fs, e.2.isFlat = true) :
    (Walk fs walkFn []).1.Perm (fs.filterMap entryData) := by
  rw [Walk_walkFn]
  refine ((List.perm_insertionSort _ (visitEntries [] fs)).filterMap _).trans ?_
  rw [visitEntries_flat [] fs hflat, List.filterMap_map]
  apply List.Perm.of_eq
  apply List.filterMap_congr
  intro e _
  simp [Function.comp, infoData_fileInfo]

theorem stat_mem (fs : FS) (n : String) (x : Node) (h : stat fs n = some x) : (n, x) ∈ fs := by
  induction fs with
  | nil => simp [stat] at h
  | cons p rest ih =>
    obtain ⟨m, y⟩ := p
    by_cases hm : m = n
    · subst hm
      simp only [stat, if_true, Option.some.injEq] at h
      subst h
      exact List.mem_cons_self _ _
    · simp only [stat, hm, if_false] at h
      exact List.mem_cons_of_mem _ (ih h)

theorem mem_stat (fs : FS) (n : String) (x : Node) (hnd : (fs.map Prod.fst).Nodup)
    (h : (n, x) ∈ fs) : stat fs n = some x := by
  induction fs with
  | nil => simp at h
  | cons p rest ih =>
    obtain ⟨m, y⟩ := p
    simp only [List.map_cons, List.nodup_cons, List.mem_map, Prod.exists, exists_and_right,
      exists_eq_right, not_exists] at hnd
    rcases List.mem_cons.mp h with heq | hin
    · simp only [Prod.mk.injEq] at heq
      obtain ⟨rfl, rfl⟩ := heq
      simp [stat]
    · have hm : m ≠ n := by
        intro hm; subst hm; exact hnd.1 x hin
      simp only [stat, hm, if_false]
      exact ih hnd.2 hin

theorem ReadFile_ok (fs : FS) (k : String) (d : Bytes) (h : ReadFile fs k = .ok d) :
    ∃ t, stat fs k = some (.file d t) := by
  unfold ReadFile at h
  cases hs : stat fs k with
  | none => simp [hs] at h
  | some x =>
    cases x with
    | file d1 t =>
      simp only [hs, Except.ok.injEq] at h
      exact ⟨t, by rw [h]⟩
    | dir t ch => simp [hs] at h

theorem mem_listing (fs : FS) (hfd : FlatDir fs) (x : FData) :
    x ∈ (Walk fs walkFn []).1 ↔
      ∃ d, stat fs x.Path = some (.file d x.ModTime) ∧ x.Size = (d.length : Int) := by
  obtain ⟨hnd, hrest⟩ := hfd
  rw [(listing_perm fs (fun e he => (hrest e he).2)).mem_iff, List.mem_filterMap]
  constructor
  · rintro ⟨⟨n, node⟩, hp, hdata⟩
    have hn : pathBase n = n := pathBase_plain n (hrest (n, node) hp).1
    cases node with
    | dir t ch => simp [entryData] at hdata
    | file d t =>
      simp only [entryData, Option.some.injEq, hn] at hdata
      subst hdata
      exact ⟨d, mem_stat fs n _ hnd hp, rfl⟩
  · rintro ⟨d, hs, hsize⟩
    have hp := stat_mem fs _ _ hs
    refine ⟨(x.Path, .file d x.ModTime), hp, ?_⟩
    have hn : pathBase x.Path = x.Path := pathBase_plain _ (hrest _ hp).1
    cases x
    simp_all [entryData]


/-! ## The directory after a pass whose deletions succeed -/

theorem touch_isFlat (t : Time) (x : Node) : (x.touch t).isFlat = x.isFlat := by
  cases x with
  | file d t0 => rfl
  | dir t0 ch => cases ch <;> rfl

theorem setTimes_names (fs : FS) (k : String) (t : Time) :
    (setTimes fs k t).1.map Prod.fst = fs.map Prod.fst := by
  induction fs with
  | nil => simp [setTimes]
  | cons p rest ih =>
    obtain ⟨n, x⟩ := p
    by_cases h : n = k
    · simp [setTimes, h]
    · simp [setTimes, h, ih]

theorem setTimes_all (fs : FS) (k : String) (t : Time) (P : String × Node → Prop)
    (hP : ∀ n x, P (n, x) → P (n, x.touch t)) (h : ∀ e ∈ fs, P e) :
    ∀ e ∈ (setTimes fs k t).1, P e := by
  induction fs with
  | nil => simp [setTimes]
  | cons p rest ih =>
    obtain ⟨n, x⟩ := p
    have hhead : P (n, x) := h (n, x) (List.mem_cons_self _ _)
    have htail : ∀ e ∈ rest, P e := fun e he => h e (List.mem_cons_of_mem _ he)
    by_cases hn : n = k
    · simp only [setTimes, hn, if_true]
      intro e he
      rcases List.mem_cons.mp he with rfl | he
      · exact hn ▸ hP n x hhead
      · exact htail e he
    · simp only [setTimes, hn, if_false]
      intro e he
      rcases List.mem_cons.mp he with rfl | he
      · exact hhead
      · exact ih htail e he

theorem Chtimes_FlatDir (fails : Bool) (fs : FS) (k : String) (t : Time) (h : FlatDir fs) :
    FlatDir (Chtimes fails fs k t).1 := by
  cases fails
  · simp only [Chtimes, Bool.false_eq_true, if_false]
    refine ⟨by rw [setTimes_names]; exact h.1, ?_⟩
    exact setTimes_all fs k t (fun e => PlainName e.1 ∧ e.2.isFlat = true)
      (fun n x hx => ⟨hx.1, by rw [touch_isFlat]; exact hx.2⟩) h.2
  · simpa [Chtimes] using h

theorem unlink_eq_filter (fs : FS) (p : String) (hfd : FlatDir fs) :
    (unlink fs p).1 = fs.filter (fun q => decide (q.1 ≠ p)) := by
  obtain ⟨hnd, hrest⟩ := hfd
  induction fs with
  | nil => simp [unlink]
  | cons e rest ih =>
    obtain ⟨n, x⟩ := e
    have hx : x.isFlat = true := (hrest (n, x) (List.mem_cons_self _ _)).2
    have hrest1 : ∀ e ∈ rest, PlainName e.1 ∧ e.2.isFlat = true :=
      fun e he => hrest e (List.mem_cons_of_mem _ he)
    simp only [List.map_cons, List.nodup_cons, List.mem_map, Prod.exists, exists_and_right,
      exists_eq_right, not_exists] at hnd
    by_cases h : n = p
    · subst h
      simp only [unlink, if_true, hx]
      rw [List.filter_cons_of_neg (by simp)]
      symm
      rw [List.filter_eq_self]
      intro q hq
      simp only [decide_eq_true_eq]
      intro hqn
      exact hnd.1 q.2 (by rw [← hqn]; exact hq)
    · simp [unlink, h, ih hnd.2 hrest1]

theorem filter_FlatDir (fs : FS) (P : String × Node → Bool) (h : FlatDir fs) :
    FlatDir (fs.filter P) :=
  ⟨h.1.sublist ((List.filter_sublist fs).map Prod.fst),
    fun e he => h.2 e (List.mem_of_mem_filter he)⟩

theorem trimLoop_fs (c : DiskCache) (l : FDataList) (s fcount : Int) (fs : FS)
    (hfd : FlatDir fs) :
    (trimLoop c (fun _ => false) l s fcount fs).fs =
      fs.filter (fun q => decide
        (q.1 ∉ (trimLoop c (fun _ => false) l s fcount fs).attempts.map FData.Path)) := by
  induction l generalizing s fcount fs with
  | nil => simp [trimLoop]
  | cons f rest ih =>
    by_cases h : s > c.MaxBytes ∨ fcount > c.MaxFiles
    · simp only [trimLoop, h, if_true, Remove, Bool.false_eq_true, if_false]
      rw [unlink_eq_filter fs f.Path hfd]
      rw [ih _ _ _ (filter_FlatDir fs _ hfd)]
      rw [List.filter_filter]
      apply List.filter_congr
      intro q _
      simp only [List.map_cons, List.mem_cons, not_or, Bool.decide_and, ne_eq,
        Bool.and_comm]
    · simp [trimLoop, h]

theorem stat_filter (fs : FS) (paths : List String) (n : String) :
    stat (fs.filter (fun q => decide (q.1 ∉ paths))) n
      = if n ∈ paths then none else stat fs n := by
  induction fs with
  | nil => simp [stat]
  | cons e rest ih =>
    obtain ⟨m, x⟩ := e
    by_cases hm : m ∈ paths
    · rw [List.filter_cons_of_neg (by simpa using hm), ih]
      by_cases hn : n ∈ paths
      · simp [hn]
      · have hmn : m ≠ n := fun h => hn (h ▸ hm)
        simp [hn, stat, hmn]
    · rw [List.filter_cons_of_pos (by simpa using hm)]
      by_cases hmn : m = n
      · subst hmn
        simp [stat, hm]
      · simp only [stat, hmn, if_false, ih]

/-- In a flat directory, after a pass in which the system refuses no removal,
the entries that are gone are exactly those the pass called `os.Remove` on. -/
theorem stat_cleanup (c : DiskCache) (sort : FDataList → FDataList) (fs : FS)
    (hfd : FlatDir fs) (n : String) :
    stat (c.cleanup sort (fun _ => false) fs).fs n
      = if n ∈ (c.cleanup sort (fun _ => false) fs).attempts.map FData.Path then none
        else stat fs n := by
  have hfs : (c.cleanup sort (fun _ => false) fs).fs =
      fs.filter (fun q => decide
        (q.1 ∉ (c.cleanup sort (fun _ => false) fs).attempts.map FData.Path)) := by
    rw [cleanup_eq_sweep]
    unfold DiskCache.sweep
    exact trimLoop_fs c _ _ _ fs hfd
  rw [hfs]
  exact stat_filter fs _ n

theorem filterMap_entryData_filter (fs : FS) (paths : List String)
    (hplain : ∀ e ∈ fs, PlainName e.1) :
    (fs.filter (fun q => decide (q.1 ∉ paths))).filterMap entryData =
      (fs.filterMap entryData).filter (fun f => decide (f.Path ∉ paths)) := by
  induction fs with
  | nil => rfl
  | cons e rest ih =>
    obtain ⟨n, x⟩ := e
    have hn : pathBase n = n := pathBase_plain n (hplain (n, x) (List.mem_cons_self _ _))
    have ih1 := ih (fun e he => hplain e (List.mem_cons_of_mem _ he))
    simp only [decide_not] at ih1 ⊢
    cases x with
    | dir t ch =>
      by_cases hin : n ∈ paths
      · simp [List.filter_cons, hin, entryData, ih1]
      · simp [List.filter_cons, hin, entryData, ih1]
    | file d t =>
      by_cases hin : n ∈ paths
      · simp [List.filter_cons, hin, entryData, ih1, hn]
      · simp [List.filter_cons, hin, entryData, ih1, hn]

/-- After a pass in which every `os.Remove` succeeds, the regular files of a
flat directory are the entries of the listing that were not removed. -/
theorem cleanup_listing (c : DiskCache) (sort : FDataList → FDataList) (fs : FS)
    (hfd : FlatDir fs) :
    (Walk (c.cleanup sort (fun _ => false) fs).fs walkFn []).1.Perm
      (survivors (Walk fs walkFn []).1 (c.cleanup sort (fun _ => false) fs).attempts) := by
  have hflat : ∀ e ∈ fs, e.2.isFlat = true := fun e he => (hfd.2 e he).2
  have hplain : ∀ e ∈ fs, PlainName e.1 := fun e he => (hfd.2 e he).1
  have hfs : (c.cleanup sort (fun _ => false) fs).fs =
      fs.filter (fun q => decide
        (q.1 ∉ (c.cleanup sort (fun _ => false) fs).attempts.map FData.Path)) := by
    rw [cleanup_eq_sweep]
    unfold DiskCache.sweep
    exact trimLoop_fs c _ _ _ fs hfd
  generalize (c.cleanup sort (fun _ => false) fs).attempts = att at hfs
  rw [hfs]
  refine (listing_perm _ (fun e he => hflat e (List.mem_of_mem_filter he))).trans ?_
  rw [filterMap_entryData_filter fs _ hplain]
  unfold survivors
  exact ((listing_perm fs hflat).filter _).symm


/-! ## The sweep when the size accounting does not wrap -/

/-- When the sizes of a listing are non-negative and sum to less than 2^63, so
that the `int64` accounting of `cleanup` is exact, and both limits are positive,
the entries that are left when the files the pass removes are gone are within
both budgets; in a flat directory with that listing and a pass in which every
`os.Remove` succeeds, these are the files of the directory after the pass. -/
theorem budgets_without_overflow (c : DiskCache) (sort : FDataList → FDataList)
    (rmFails : String → Bool) (files : FDataList) (fs : FS)
    (hsort : IsSortOf (sort files) files)
    (hdistinct : (files.map FData.Path).Nodup)
    (hnn : ∀ f ∈ files, 0 ≤ f.Size)
    (hB : 0 < c.MaxBytes) (hF : 0 < c.MaxFiles)
    (hfit : sumSize files < 9223372036854775808) :
    (sumSize (survivors files (c.sweep sort rmFails files fs).attempts) ≤ c.MaxBytes ∧
      ((survivors files (c.sweep sort rmFails files fs).attempts).length : Int)
        ≤ c.MaxFiles) ∧
    (∀ dir : FS, FlatDir dir → (Walk dir walkFn []).1 = files →
      sumSize (Walk (c.cleanup sort (fun _ => false) dir).fs walkFn []).1 ≤ c.MaxBytes ∧
      (((Walk (c.cleanup sort (fun _ => false) dir).fs walkFn []).1.length : Nat) : Int)
        ≤ c.MaxFiles) := by
  obtain ⟨hperm, -⟩ := hsort
  have hnnS := perm_nonneg hperm hnn
  have hfitS : sumSize (sort files) < 9223372036854775808 := by
    rw [sumSize_perm hperm]; exact hfit
  obtain ⟨h1, -, h3⟩ := evictCount_least c (sort files) hnnS hfitS
  have hw : WithinBudget c ((sort files).drop
      (evictCount c (sort files) (wrap64 (sumSize (sort files))) (sort files).length)) := by
    rcases Nat.lt_or_ge
      (evictCount c (sort files) (wrap64 (sumSize (sort files))) (sort files).length)
      (sort files).length with hlt | hge
    · exact h3 hlt
    · rw [List.drop_eq_nil_of_le hge]
      exact withinBudget_nil c (le_of_lt hB) (le_of_lt hF)
  have key : ∀ (rm : String → Bool) (g : FS),
      WithinBudget c (survivors files (c.sweep sort rm files g).attempts) := by
    intro rm g
    rw [(sweep_attempts c sort rm files g).1]
    exact (withinBudget_perm c (survivors_perm files (sort files) _ hperm hdistinct)).mpr hw
  refine ⟨key rmFails fs, ?_⟩
  intro dir hwf hlist
  have hc : c.cleanup sort (fun _ => false) dir = c.sweep sort (fun _ => false) files dir := by
    rw [cleanup_eq_sweep, hlist]
  have hp := cleanup_listing c sort dir hwf
  rw [hlist, hc] at hp
  rw [hc]
  exact (withinBudget_perm c hp).mpr (key _ dir)

/-- When the sizes of a listing are non-negative and sum to less than 2^63,
the pass calls `os.Remove` on exactly the first `k` entries of the sorted
listing, for the least `k` that leaves both budgets satisfied. -/
theorem exact_count_without_overflow (c : DiskCache) (sort : FDataList → FDataList)
    (rmFails : String → Bool) (files : FDataList) (fs : FS)
    (hsort : IsSortOf (sort files) files)
    (hnn : ∀ f ∈ files, 0 ≤ f.Size)
    (hfit : sumSize files < 9223372036854775808) :
    (∀ k, k ≤ files.length → WithinBudget c ((sort files).drop k) →
        (∀ j, j < k → ¬ WithinBudget c ((sort files).drop j)) →
        (c.sweep sort rmFails files fs).attempts = (sort files).take k) ∧
    (0 ≤ c.MaxBytes → 0 ≤ c.MaxFiles →
        ∃ k, k ≤ files.length ∧ WithinBudget c ((sort files).drop k) ∧
          (∀ j, j < k → ¬ WithinBudget c ((sort files).drop j)) ∧
          (c.sweep sort rmFails files fs).attempts = (sort files).take k) ∧
    (0 ≤ c.MaxFiles → c.MaxFiles < files.length → sumSize files ≤ c.MaxBytes →
        (c.sweep sort rmFails files fs).attempts
          = (sort files).take (files.length - c.MaxFiles.toNat) ∧
        (((c.sweep sort rmFails files fs).attempts.length : Nat) : Int)
          = files.length - c.MaxFiles) ∧
    (WithinBudget c files → (c.sweep sort rmFails files fs).attempts = []) := by
  obtain ⟨hperm, -⟩ := hsort
  have hnnS := perm_nonneg hperm hnn
  have hsum : sumSize (sort files) = sumSize files := sumSize_perm hperm
  have hlen : (sort files).length = files.length := hperm.length_eq
  have hfitS : sumSize (sort files) < 9223372036854775808 := by
    rw [hsum]; exact hfit
  obtain ⟨h1, h2, h3⟩ := evictCount_least c (sort files) hnnS hfitS
  have hatt := (sweep_attempts c sort rmFails files fs).1
  have least : ∀ k, k ≤ files.length → WithinBudget c ((sort files).drop k) →
      (∀ j, j < k → ¬ WithinBudget c ((sort files).drop j)) →
      (c.sweep sort rmFails files fs).attempts = (sort files).take k := by
    intro k hk hw hleast
    rw [hatt]
    congr 1
    rcases Nat.lt_trichotomy
      (evictCount c (sort files) (wrap64 (sumSize (sort files))) (sort files).length) k
      with hlt | heq | hgt
    · exact absurd (h3 (by omega)) (hleast _ hlt)
    · exact heq
    · exact absurd hw (h2 k hgt)
  refine ⟨least, ?_, ?_, ?_⟩
  · intro hB hF
    refine ⟨evictCount c (sort files) (wrap64 (sumSize (sort files))) (sort files).length,
      by omega, ?_, h2, hatt⟩
    rcases Nat.lt_or_ge
      (evictCount c (sort files) (wrap64 (sumSize (sort files))) (sort files).length)
      (sort files).length with hlt | hge
    · exact h3 hlt
    · rw [List.drop_eq_nil_of_le hge]
      exact withinBudget_nil c hB hF
  · intro hF hn hB
    have hk : files.length - c.MaxFiles.toNat ≤ files.length := Nat.sub_le _ _
    have hto : (c.MaxFiles.toNat : Int) = c.MaxFiles := Int.toNat_of_nonneg hF
    have hatt2 := least (files.length - c.MaxFiles.toNat) hk (by
        have hr := sumSize_drop_range (sort files) hnnS (files.length - c.MaxFiles.toNat)
        refine ⟨by omega, ?_⟩
        rw [List.length_drop, hlen]
        omega) (by
        intro j hj hw
        have := hw.2
        rw [List.length_drop, hlen] at this
        omega)
    refine ⟨hatt2, ?_⟩
    rw [hatt2, List.length_take, hlen]
    omega
  · intro hw
    have := least 0 (Nat.zero_le _) (by
        rw [List.drop_zero]; exact (withinBudget_perm c hperm).mpr hw) (by
        intro j hj; omega)
    simpa using this

/-- When the sizes of a listing are non-negative and sum to less than 2^63, no
entry that the pass keeps is larger than `MaxBytes`, and an oversized entry is
removed with everything sorted before it. -/
theorem oversized_without_overflow (c : DiskCache) (sort : FDataList → FDataList)
    (rmFails : String → Bool) (files : FDataList) (fs : FS)
    (hsort : IsSortOf (sort files) files)
    (hnn : ∀ f ∈ files, 0 ≤ f.Size)
    (hfit : sumSize files < 9223372036854775808) :
    (∀ b ∈ keptOf (sort files) (c.sweep sort rmFails files fs).attempts,
        b.Size ≤ c.MaxBytes) ∧
    (c.sweep sort rmFails files fs).attempts
        = (sort files).take (c.sweep sort rmFails files fs).attempts.length ∧
    (∀ i, ∀ hi : i < (sort files).length, c.MaxBytes < ((sort files).get ⟨i, hi⟩).Size →
        i < (c.sweep sort rmFails files fs).attempts.length) ∧
    (∀ last, (sort files).getLast? = some last → c.MaxBytes < last.Size →
        (c.sweep sort rmFails files fs).attempts = sort files) := by
  obtain ⟨hperm, -⟩ := hsort
  have hnnS := perm_nonneg hperm hnn
  have hfitS : sumSize (sort files) < 9223372036854775808 := by
    rw [sumSize_perm hperm]; exact hfit
  obtain ⟨h1, h2, h3⟩ := evictCount_least c (sort files) hnnS hfitS
  have hatt := (sweep_attempts c sort rmFails files fs).1
  have hlenatt : (c.sweep sort rmFails files fs).attempts.length
      = evictCount c (sort files) (wrap64 (sumSize (sort files))) (sort files).length := by
    rw [hatt, List.length_take]; omega
  have hkept : ∀ b ∈ (sort files).drop
      (evictCount c (sort files) (wrap64 (sumSize (sort files))) (sort files).length),
      b.Size ≤ c.MaxBytes := by
    intro b hb
    rcases Nat.lt_or_ge
      (evictCount c (sort files) (wrap64 (sumSize (sort files))) (sort files).length)
      (sort files).length with hlt | hge
    · have hw := (h3 hlt).1
      have := size_le_sumSize _ (fun f hf => hnnS f (List.mem_of_mem_drop hf)) b hb
      omega
    · rw [List.drop_eq_nil_of_le hge] at hb
      simp at hb
  have hpos : ∀ i, ∀ hi : i < (sort files).length,
      c.MaxBytes < ((sort files).get ⟨i, hi⟩).Size →
      i < evictCount c (sort files) (wrap64 (sumSize (sort files))) (sort files).length := by
    intro i hi hbig
    by_contra hge
    have hmem : (sort files).get ⟨i, hi⟩ ∈ (sort files).drop
        (evictCount c (sort files) (wrap64 (sumSize (sort files))) (sort files).length) := by
      rw [List.mem_iff_getElem]
      refine ⟨i - evictCount c (sort files) (wrap64 (sumSize (sort files))) (sort files).length,
        by rw [List.length_drop]; omega, ?_⟩
      rw [List.getElem_drop]
      simp only [List.get_eq_getElem]
      congr 1
      omega
    have := hkept _ hmem
    omega
  refine ⟨?_, ?_, ?_, ?_⟩
  · rw [keptOf, hlenatt]; exact hkept
  · rw [hlenatt]; exact hatt
  · intro i hi hbig
    rw [hlenatt]; exact hpos i hi hbig
  · intro last hlast hbig
    rw [hatt]
    apply List.take_of_length_le
    rw [List.getLast?_eq_getElem?] at hlast
    have hne : 0 < (sort files).length := by
      rcases Nat.eq_zero_or_pos (sort files).length with h0 | hp
      · rw [List.length_eq_zero] at h0
        rw [h0] at hlast
        simp at hlast
      · exact hp
    have hi : (sort files).length - 1 < (sort files).length := by omega
    rw [List.getElem?_eq_getElem hi] at hlast
    have hl : (sort files).get ⟨(sort files).length - 1, hi⟩ = last := by
      simpa using hlast
    have := hpos _ hi (by rw [hl]; exact hbig)
    omega

/-! ## The refresh on read -/

/-- The listing that `cleanup` collects from a flat directory right after a
`Get(e)` whose `os.Chtimes` was accepted, at a time whose second is later than
the second of every other file. -/
theorem listing_after_Get (c : DiskCache) (fs : FS) (now : Time) (e : String) (d : Bytes)
    (hfd : FlatDir fs) (hread : ReadFile fs e = .ok d)
    (hlater : ∀ n d1 t, n ≠ e → stat fs n = some (.file d1 t) → t.Unix < now.Unix) :
    (⟨e, now, (d.length : Int)⟩ : FData) ∈ (Walk (c.Get false fs now e).fs walkFn []).1 ∧
    (∀ x ∈ (Walk (c.Get false fs now e).fs walkFn []).1,
        x = ⟨e, now, (d.length : Int)⟩ ∨ (x.Path ≠ e ∧ x.ModTime.Unix < now.Unix)) ∧
    (∀ n, n ≠ e → IsFile fs n →
        ∃ y ∈ (Walk (c.Get false fs now e).fs walkFn []).1, y.Path = n) := by
  obtain ⟨t0, hst⟩ := ReadFile_ok fs e d hread
  have hfd1 : FlatDir (Chtimes false fs e now).1 := Chtimes_FlatDir false fs e now hfd
  have hself : stat (Chtimes false fs e now).1 e = some (.file d now) := by
    rw [stat_Chtimes_self, hst]; rfl
  rw [Get_fs]
  refine ⟨?_, ?_, ?_⟩
  · rw [mem_listing _ hfd1]
    exact ⟨d, hself, rfl⟩
  · intro x hx
    rw [mem_listing _ hfd1] at hx
    obtain ⟨d1, hs1, hsize⟩ := hx
    by_cases hn : x.Path = e
    · left
      rw [hn, hself] at hs1
      simp only [Option.some.injEq, Node.file.injEq] at hs1
      obtain ⟨rfl, ht⟩ := hs1
      cases x
      simp_all
    · right
      rw [stat_Chtimes_other false fs e x.Path now (Ne.symm hn)] at hs1
      exact ⟨hn, hlater x.Path d1 x.ModTime hn hs1⟩
  · rintro n hn ⟨d1, t1, hs⟩
    refine ⟨⟨n, t1, (d1.length : Int)⟩, ?_, rfl⟩
    rw [mem_listing _ hfd1]
    exact ⟨d1, by rw [stat_Chtimes_other false fs e n now (Ne.symm hn)]; exact hs, rfl⟩


/-! ## The claims -/

/-- C1 (round trip and overwrite): in every state of the cache directory, for a
plain file name `k` and every payload `v`, when `Set(k, v)` returns no error a
`Get(k)` issued on the state that `Set` left returns exactly `v` with a nil
error, whether or not its `os.Chtimes` is accepted.  This holds also on the
state left by an earlier `Set(k, v1)`: after `Set(k, v1); Set(k, v)` the read
returns `v`, the second write having replaced the first. -/
theorem set_then_get (c : DiskCache) (chFails : Bool) (fs : FS) (t1 t2 : Time) (k : String)
    (v : Bytes) (_hk : PlainName k) :
    ((c.Set fs t1 k v).err = none →
      (c.Get chFails (c.Set fs t1 k v).fs t2 k).data = some v ∧
      (c.Get chFails (c.Set fs t1 k v).fs t2 k).err = none) ∧
    (∀ (t0 : Time) (v1 : Bytes), (c.Set (c.Set fs t0 k v1).fs t1 k v).err = none →
      (c.Get chFails (c.Set (c.Set fs t0 k v1).fs t1 k v).fs t2 k).data = some v ∧
      (c.Get chFails (c.Set (c.Set fs t0 k v1).fs t1 k v).fs t2 k).err = none) := by
  have main : ∀ g : FS, (c.Set g t1 k v).err = none →
      (c.Get chFails (c.Set g t1 k v).fs t2 k).data = some v ∧
      (c.Get chFails (c.Set g t1 k v).fs t2 k).err = none := by
    intro g hset
    have hw : (WriteFile g t1 k v).2 = none := by
      simpa [DiskCache.Set] using hset
    have hr : ReadFile (c.Set g t1 k v).fs k = .ok v := by
      simp [DiskCache.Set, ReadFile, stat_WriteFile_self g t1 k v hw]
    rw [Get_eq, hr]
    exact ⟨rfl, rfl⟩
  exact ⟨main fs, fun t0 v1 h => main _ h⟩

/-- Witness of C1 on an overwrite: `Set("1", v1); Set("1", v2); Get("1")`
returns `v2`. -/
theorem set_then_get_witness :
    PlainName "1" ∧
    ((NewDiskCache "/tmp").Set ((NewDiskCache "/tmp").Set [] ⟨1⟩ "1" [115, 111]).fs ⟨2⟩ "1"
        [100, 97, 116, 97]).err = none ∧
    ((NewDiskCache "/tmp").Get false
        ((NewDiskCache "/tmp").Set ((NewDiskCache "/tmp").Set [] ⟨1⟩ "1" [115, 111]).fs ⟨2⟩ "1"
          [100, 97, 116, 97]).fs ⟨3⟩ "1").data = some [100, 97, 116, 97] ∧
    ((NewDiskCache "/tmp").Get false
        ((NewDiskCache "/tmp").Set ((NewDiskCache "/tmp").Set [] ⟨1⟩ "1" [115, 111]).fs ⟨2⟩ "1"
          [100, 97, 116, 97]).fs ⟨3⟩ "1").err = none :=
  ⟨by decide, by decide,
    (set_then_get (NewDiskCache "/tmp") false [] ⟨2⟩ ⟨3⟩ "1" [100, 97, 116, 97]
      (by decide)).2 ⟨1⟩ [115, 111] (by decide)⟩

/-- C2 (both budgets hold after a sweep) is broken by the code on a listing of
two files of 2^62 bytes with distinct names, under the default configuration,
which `Start` accepts, in a pass whose deletions all succeed: `TotalSize`
accumulates in an `int64` and returns -2^63, the test `s > c.MaxBytes` is false
at the first entry, the loop breaks, nothing is removed, and the survivors hold
2^63 bytes, above `MaxBytes`. -/
theorem budgets_break_on_overflow :
    (NewDiskCache "/tmp").Start.err = none ∧
    IsSortOf (insertionSort [⟨"a", ⟨1000000000⟩, 4611686018427387904⟩, ⟨"b", ⟨2000000000⟩, 4611686018427387904⟩]) [⟨"a", ⟨1000000000⟩, 4611686018427387904⟩, ⟨"b", ⟨2000000000⟩, 4611686018427387904⟩] ∧
    (([⟨"a", ⟨1000000000⟩, 4611686018427387904⟩, ⟨"b", ⟨2000000000⟩, 4611686018427387904⟩] : FDataList).map FData.Path).Nodup ∧
    (∀ f ∈ ([⟨"a", ⟨1000000000⟩, 4611686018427387904⟩, ⟨"b", ⟨2000000000⟩, 4611686018427387904⟩] : FDataList), 0 ≤ f.Size) ∧
    FDataList.TotalSize (insertionSort [⟨"a", ⟨1000000000⟩, 4611686018427387904⟩, ⟨"b", ⟨2000000000⟩, 4611686018427387904⟩]) = -9223372036854775808 ∧
    ((NewDiskCache "/tmp").sweep insertionSort (fun _ => false) [⟨"a", ⟨1000000000⟩, 4611686018427387904⟩, ⟨"b", ⟨2000000000⟩, 4611686018427387904⟩] []).attempts = [] ∧
    survivors [⟨"a", ⟨1000000000⟩, 4611686018427387904⟩, ⟨"b", ⟨2000000000⟩, 4611686018427387904⟩] ((NewDiskCache "/tmp").sweep insertionSort (fun _ => false) [⟨"a", ⟨1000000000⟩, 4611686018427387904⟩, ⟨"b", ⟨2000000000⟩, 4611686018427387904⟩] []).attempts
      = [⟨"a", ⟨1000000000⟩, 4611686018427387904⟩, ⟨"b", ⟨2000000000⟩, 4611686018427387904⟩] ∧
    sumSize (survivors [⟨"a", ⟨1000000000⟩, 4611686018427387904⟩, ⟨"b", ⟨2000000000⟩, 4611686018427387904⟩]
      ((NewDiskCache "/tmp").sweep insertionSort (fun _ => false) [⟨"a", ⟨1000000000⟩, 4611686018427387904⟩, ⟨"b", ⟨2000000000⟩, 4611686018427387904⟩] []).attempts)
      = 9223372036854775808 ∧
    ¬ WithinBudget (NewDiskCache "/tmp")
      (survivors [⟨"a", ⟨1000000000⟩, 4611686018427387904⟩, ⟨"b", ⟨2000000000⟩, 4611686018427387904⟩]
        ((NewDiskCache "/tmp").sweep insertionSort (fun _ => false) [⟨"a", ⟨1000000000⟩, 4611686018427387904⟩, ⟨"b", ⟨2000000000⟩, 4611686018427387904⟩] []).attempts) := by
  refine ⟨by decide, by decide, by decide, by decide, by decide, by decide, by decide,
    by decide, by decide⟩


/-- C3, as the claim words it, fails in two ways.  First, `a` was modified at
10.9 s and `b` at 10.1 s, at most one file may stay and every removal
succeeds: `Less` compares whole seconds, the two tie, the sort leaves `a`
first, and the pass deletes `a` and keeps `b` although `a` was modified later.
Second, `a`, `b`, `c` were modified at 1 s, 2 s, 3 s, at most one file may stay
and the system refuses the removal of `a`: the pass deletes `b` and keeps the
older `a`. -/
theorem oldest_evicted_first_counterexample :
    (FlatDir [("a", .file [1] ⟨10900000000⟩), ("b", .file [2] ⟨10100000000⟩)] ∧
      IsSortOf (insertionSort (Walk [("a", .file [1] ⟨10900000000⟩), ("b", .file [2] ⟨10100000000⟩)] walkFn []).1) (Walk [("a", .file [1] ⟨10900000000⟩), ("b", .file [2] ⟨10100000000⟩)] walkFn []).1 ∧
      modTimeOf [("a", .file [1] ⟨10900000000⟩), ("b", .file [2] ⟨10100000000⟩)] "a" = some ⟨10900000000⟩ ∧
      modTimeOf [("a", .file [1] ⟨10900000000⟩), ("b", .file [2] ⟨10100000000⟩)] "b" = some ⟨10100000000⟩ ∧
      present (DiskCache.cleanup ⟨"/tmp", 1048576, 1, 1, none⟩ insertionSort (fun _ => false) [("a", .file [1] ⟨10900000000⟩), ("b", .file [2] ⟨10100000000⟩)]).fs "a" = false ∧
      present (DiskCache.cleanup ⟨"/tmp", 1048576, 1, 1, none⟩ insertionSort (fun _ => false) [("a", .file [1] ⟨10900000000⟩), ("b", .file [2] ⟨10100000000⟩)]).fs "b" = true ∧
      Time.After ⟨10900000000⟩ ⟨10100000000⟩) ∧
    (FlatDir [("a", .file [1] ⟨1000000000⟩), ("b", .file [2] ⟨2000000000⟩), ("c", .file [3] ⟨3000000000⟩)] ∧
      IsSortOf (insertionSort (Walk [("a", .file [1] ⟨1000000000⟩), ("b", .file [2] ⟨2000000000⟩), ("c", .file [3] ⟨3000000000⟩)] walkFn []).1) (Walk [("a", .file [1] ⟨1000000000⟩), ("b", .file [2] ⟨2000000000⟩), ("c", .file [3] ⟨3000000000⟩)] walkFn []).1 ∧
      modTimeOf [("a", .file [1] ⟨1000000000⟩), ("b", .file [2] ⟨2000000000⟩), ("c", .file [3] ⟨3000000000⟩)] "b" = some ⟨2000000000⟩ ∧
      modTimeOf [("a", .file [1] ⟨1000000000⟩), ("b", .file [2] ⟨2000000000⟩), ("c", .file [3] ⟨3000000000⟩)] "a" = some ⟨1000000000⟩ ∧
      present (DiskCache.cleanup ⟨"/tmp", 1048576, 1, 1, none⟩ insertionSort (fun p => decide (p = "a")) [("a", .file [1] ⟨1000000000⟩), ("b", .file [2] ⟨2000000000⟩), ("c", .file [3] ⟨3000000000⟩)]).fs "b"
        = false ∧
      present (DiskCache.cleanup ⟨"/tmp", 1048576, 1, 1, none⟩ insertionSort (fun p => decide (p = "a")) [("a", .file [1] ⟨1000000000⟩), ("b", .file [2] ⟨2000000000⟩), ("c", .file [3] ⟨3000000000⟩)]).fs "a"
        = true ∧
      Time.After ⟨2000000000⟩ ⟨1000000000⟩) := by
  refine ⟨⟨by decide, by decide, by decide, by decide, by decide, by decide, by decide⟩,
    ⟨by decide, by decide, by decide, by decide, by decide, by decide, by decide⟩⟩

/-- C3, amended (oldest removed first, to the second): the pass calls
`os.Remove` on an initial part of the listing sorted by `Less`, so for every
entry `a` on which it calls `os.Remove` and every entry `b` of the listing on
which it does not, the modification time of `a` in whole seconds
(`ModTime.Unix()`) is not later than that of `b`.  In a flat directory with
that listing and a pass in which every `os.Remove` succeeds, the files that are
gone after the pass are exactly those entries, so for every file `a` the pass
deletes and every file `b` it keeps, the modification time of `a` in whole
seconds is not later than that of `b`. -/
theorem oldest_evicted_first (c : DiskCache) (sort : FDataList → FDataList)
    (rmFails : String → Bool) (files : FDataList) (fs : FS)
    (hsort : IsSortOf (sort files) files) :
    ((c.sweep sort rmFails files fs).attempts
        ++ keptOf (sort files) (c.sweep sort rmFails files fs).attempts = sort files ∧
      ∀ a ∈ (c.sweep sort rmFails files fs).attempts,
        ∀ b ∈ keptOf (sort files) (c.sweep sort rmFails files fs).attempts,
          a.ModTime.Unix ≤ b.ModTime.Unix) ∧
    (∀ dir : FS, FlatDir dir → (Walk dir walkFn []).1 = files →
      (∀ n, IsFile dir n →
        (stat (c.cleanup sort (fun _ => false) dir).fs n = none ↔
          n ∈ (c.cleanup sort (fun _ => false) dir).attempts.map FData.Path)) ∧
      (∀ a b da ta db tb,
        stat dir a = some (.file da ta) → stat dir b = some (.file db tb) →
        stat (c.cleanup sort (fun _ => false) dir).fs a = none →
        stat (c.cleanup sort (fun _ => false) dir).fs b ≠ none →
        ta.Unix ≤ tb.Unix)) := by
  obtain ⟨hperm, hsorted⟩ := hsort
  have h1 := (evictCount_spec c (sort files)).1
  constructor
  · rw [(sweep_attempts c sort rmFails files fs).1, keptOf_take _ _ h1]
    exact ⟨List.take_append_drop _ _, sorted_take_le_drop hsorted _⟩
  · intro dir hfd hlist
    have hatt : (c.cleanup sort (fun _ => false) dir).attempts
        = (sort files).take
            (evictCount c (sort files) (wrap64 (sumSize (sort files))) (sort files).length) := by
      rw [cleanup_eq_sweep, hlist]
      exact (sweep_attempts c sort _ files dir).1
    have hstat := stat_cleanup c sort dir hfd
    constructor
    · rintro n ⟨d, t, hn⟩
      rw [hstat n]
      by_cases hin : n ∈ (c.cleanup sort (fun _ => false) dir).attempts.map FData.Path
      · simp [hin]
      · simp [hin, hn]
    · intro a b da ta db tb ha hb hagone hbkept
      rw [hstat a] at hagone
      rw [hstat b] at hbkept
      have hain : a ∈ (c.cleanup sort (fun _ => false) dir).attempts.map FData.Path := by
        by_contra hnot
        simp [hnot, ha] at hagone
      have hbout : b ∉ (c.cleanup sort (fun _ => false) dir).attempts.map FData.Path := by
        intro hin
        simp [hin] at hbkept
      rw [hatt] at hain hbout
      obtain ⟨x, hx, hxp⟩ := List.mem_map.mp hain
      have hxl : x ∈ (Walk dir walkFn []).1 := by
        rw [hlist]; exact hperm.subset (List.mem_of_mem_take hx)
      obtain ⟨dx, hsx, -⟩ := (mem_listing dir hfd x).mp hxl
      rw [hxp, ha] at hsx
      simp only [Option.some.injEq, Node.file.injEq] at hsx
      have hy : (⟨b, tb, (db.length : Int)⟩ : FData) ∈ sort files := by
        apply hperm.symm.subset
        rw [← hlist, mem_listing dir hfd]
        exact ⟨db, hb, rfl⟩
      rw [← List.take_append_drop
        (evictCount c (sort files) (wrap64 (sumSize (sort files))) (sort files).length)
        (sort files), List.mem_append] at hy
      rcases hy with hyt | hyd
      · exact absurd (List.mem_map.mpr ⟨_, hyt, rfl⟩) hbout
      · have := sorted_take_le_drop hsorted _ x hx _ hyd
        rw [← hsx.2] at this
        exact this

/-- Witness of the amended C3: three files in a flat directory, room for one;
`b`, the oldest, is gone after the pass and `a`, the newest, stays. -/
theorem oldest_evicted_first_witness :
    (stat (DiskCache.cleanup ⟨"/tmp", 1048576, 1, 1, none⟩ insertionSort (fun _ => false) [("a", .file [1] ⟨30900000000⟩), ("b", .file [2] ⟨10100000000⟩), ("c", .file [3] ⟨20000000000⟩)]).fs "b" = none ↔
      "b" ∈ (DiskCache.cleanup ⟨"/tmp", 1048576, 1, 1, none⟩ insertionSort (fun _ => false) [("a", .file [1] ⟨30900000000⟩), ("b", .file [2] ⟨10100000000⟩), ("c", .file [3] ⟨20000000000⟩)]).attempts.map
        FData.Path) ∧
    present (DiskCache.cleanup ⟨"/tmp", 1048576, 1, 1, none⟩ insertionSort (fun _ => false) [("a", .file [1] ⟨30900000000⟩), ("b", .file [2] ⟨10100000000⟩), ("c", .file [3] ⟨20000000000⟩)]).fs "b" = false ∧
    present (DiskCache.cleanup ⟨"/tmp", 1048576, 1, 1, none⟩ insertionSort (fun _ => false) [("a", .file [1] ⟨30900000000⟩), ("b", .file [2] ⟨10100000000⟩), ("c", .file [3] ⟨20000000000⟩)]).fs "a" = true :=
  ⟨((oldest_evicted_first ⟨"/tmp", 1048576, 1, 1, none⟩ insertionSort (fun _ => false) (Walk [("a", .file [1] ⟨30900000000⟩), ("b", .file [2] ⟨10100000000⟩), ("c", .file [3] ⟨20000000000⟩)] walkFn []).1 [("a", .file [1] ⟨30900000000⟩), ("b", .file [2] ⟨10100000000⟩), ("c", .file [3] ⟨20000000000⟩)]
      (by decide)).2 [("a", .file [1] ⟨30900000000⟩), ("b", .file [2] ⟨10100000000⟩), ("c", .file [3] ⟨20000000000⟩)] (by decide) rfl).1 "b" ⟨[2], ⟨10100000000⟩, rfl⟩,
    by decide, by decide⟩

/-- C4 (exactly enough is evicted) is broken by the code on a listing of two
files of 2^62 bytes and one of a mebibyte, under the default configuration: the
least number of oldest entries whose removal leaves a total within `MaxBytes`
and a count within `MaxFiles` is two, but `TotalSize` has wrapped below zero in
its `int64`, the test `s > c.MaxBytes` is false at the first entry and the pass
removes none. -/
theorem exact_count_breaks_on_overflow :
    (NewDiskCache "/tmp").Start.err = none ∧
    IsSortOf (insertionSort [⟨"a", ⟨1000000000⟩, 4611686018427387904⟩, ⟨"b", ⟨2000000000⟩, 4611686018427387904⟩, ⟨"c", ⟨3000000000⟩, 1048576⟩]) [⟨"a", ⟨1000000000⟩, 4611686018427387904⟩, ⟨"b", ⟨2000000000⟩, 4611686018427387904⟩, ⟨"c", ⟨3000000000⟩, 1048576⟩] ∧
    (∀ f ∈ ([⟨"a", ⟨1000000000⟩, 4611686018427387904⟩, ⟨"b", ⟨2000000000⟩, 4611686018427387904⟩, ⟨"c", ⟨3000000000⟩, 1048576⟩] : FDataList), 0 ≤ f.Size) ∧
    WithinBudget (NewDiskCache "/tmp") ((insertionSort [⟨"a", ⟨1000000000⟩, 4611686018427387904⟩, ⟨"b", ⟨2000000000⟩, 4611686018427387904⟩, ⟨"c", ⟨3000000000⟩, 1048576⟩]).drop 2) ∧
    (∀ j < 2, ¬ WithinBudget (NewDiskCache "/tmp") ((insertionSort [⟨"a", ⟨1000000000⟩, 4611686018427387904⟩, ⟨"b", ⟨2000000000⟩, 4611686018427387904⟩, ⟨"c", ⟨3000000000⟩, 1048576⟩]).drop j)) ∧
    FDataList.TotalSize (insertionSort [⟨"a", ⟨1000000000⟩, 4611686018427387904⟩, ⟨"b", ⟨2000000000⟩, 4611686018427387904⟩, ⟨"c", ⟨3000000000⟩, 1048576⟩]) = -9223372036854775808 + 1048576 ∧
    ((NewDiskCache "/tmp").sweep insertionSort (fun _ => false) [⟨"a", ⟨1000000000⟩, 4611686018427387904⟩, ⟨"b", ⟨2000000000⟩, 4611686018427387904⟩, ⟨"c", ⟨3000000000⟩, 1048576⟩] []).attempts = [] ∧
    ((NewDiskCache "/tmp").sweep insertionSort (fun _ => false) [⟨"a", ⟨1000000000⟩, 4611686018427387904⟩, ⟨"b", ⟨2000000000⟩, 4611686018427387904⟩, ⟨"c", ⟨3000000000⟩, 1048576⟩] []).attempts ≠
      (insertionSort [⟨"a", ⟨1000000000⟩, 4611686018427387904⟩, ⟨"b", ⟨2000000000⟩, 4611686018427387904⟩, ⟨"c", ⟨3000000000⟩, 1048576⟩]).take 2 := by
  refine ⟨by decide, by decide, by decide, by decide, by decide, by decide, by decide,
    by decide⟩


/-- C5 (uniform miss): in every state and for every plain file name `k`,
`Get(k)` returns a nil slice and the sentinel `ErrNotFound` whenever the file
of `k` cannot be read, whatever the error of the read is; in particular when
`k` has no entry, and when the entry of `k` has just been removed.  It returns
`ErrNotFound` in that case only: when the file can be read `Get` returns its
contents and a nil error. -/
theorem get_miss_uniform (c : DiskCache) (chFails : Bool) (fs : FS) (now : Time)
    (k : String) (_hk : PlainName k) :
    (∀ e, ReadFile fs k = .error e →
        (c.Get chFails fs now k).data = none ∧
        (c.Get chFails fs now k).err = some .ErrNotFound) ∧
    (stat fs k = none →
        (c.Get chFails fs now k).data = none ∧
        (c.Get chFails fs now k).err = some .ErrNotFound) ∧
    (∀ fs0, (fs0.map Prod.fst).Nodup → (Remove false fs0 k).2 = none →
        (c.Get chFails (Remove false fs0 k).1 now k).data = none ∧
        (c.Get chFails (Remove false fs0 k).1 now k).err = some .ErrNotFound) ∧
    ((c.Get chFails fs now k).err = some .ErrNotFound ↔ ∃ e, ReadFile fs k = .error e) ∧
    (∀ b, ReadFile fs k = .ok b →
        (c.Get chFails fs now k).data = some b ∧ (c.Get chFails fs now k).err = none) := by
  have hmiss : ∀ (g : FS), stat g k = none →
      (c.Get chFails g now k).data = none ∧
      (c.Get chFails g now k).err = some .ErrNotFound := by
    intro g hg
    rw [Get_eq]
    simp [ReadFile, hg]
  refine ⟨?_, hmiss fs, ?_, ?_, ?_⟩
  · intro e he
    rw [Get_eq, he]
    exact ⟨rfl, rfl⟩
  · intro fs0 hnd hrm
    exact hmiss _ (stat_Remove_self fs0 k hnd hrm)
  · rw [Get_eq]
    cases h : ReadFile fs k with
    | error e => simp
    | ok b => simp
  · intro b hb
    rw [Get_eq, hb]
    exact ⟨rfl, rfl⟩

/-- Witness of C5: a key that was never written, in a directory that holds
another file and a subdirectory. -/
theorem get_miss_uniform_witness :
    PlainName "notexist" ∧
    ((NewDiskCache "/tmp").Get false [("1", .file [7] ⟨1⟩), ("d", .dir ⟨1⟩ [])] ⟨5⟩
        "notexist").data = none ∧
    ((NewDiskCache "/tmp").Get false [("1", .file [7] ⟨1⟩), ("d", .dir ⟨1⟩ [])] ⟨5⟩
        "notexist").err = some .ErrNotFound :=
  ⟨by decide,
    (get_miss_uniform (NewDiskCache "/tmp") false [("1", .file [7] ⟨1⟩), ("d", .dir ⟨1⟩ [])]
      ⟨5⟩ "notexist" (by decide)).2.1 rfl⟩

/-- C6 (validation by `Start`): `Start` returns a non-nil error exactly when
`MaxBytes <= 0` or `MaxFiles <= 0` or `CleanupSleep <= 0`; with an error the
cache value is unchanged (no `Shutdown` channel is made) and no goroutine is
launched; with three strictly positive settings it returns nil, makes the
channel of capacity one and launches the loop with a ticker of period
`CleanupSleep`.  The defaults of `NewDiskCache` are 1048576 bytes, 256 files
and 60 seconds, and `Start` accepts them. -/
theorem start_validation (c : DiskCache) :
    (c.Start.err ≠ none ↔ (c.MaxBytes ≤ 0 ∨ c.MaxFiles ≤ 0 ∨ c.CleanupSleep ≤ 0)) ∧
    (c.Start.err ≠ none → c.Start.cache = c ∧ c.Start.loop = none) ∧
    (0 < c.MaxBytes ∧ 0 < c.MaxFiles ∧ 0 < c.CleanupSleep →
        c.Start.err = none ∧ c.Start.loop = some c.CleanupSleep ∧
        c.Start.cache = { c with Shutdown := some ⟨1, 0⟩ }) ∧
    (∀ dir : String,
        (NewDiskCache dir).MaxBytes = 1048576 ∧ (NewDiskCache dir).MaxFiles = 256 ∧
        (NewDiskCache dir).CleanupSleep = 60 * 1000000000 ∧
        (NewDiskCache dir).Shutdown = none ∧
        (NewDiskCache dir).Start.err = none ∧
        (NewDiskCache dir).Start.loop = some (60 * 1000000000)) := by
  refine ⟨?_, ?_, ?_, ?_⟩
  · unfold DiskCache.Start
    by_cases h1 : c.MaxBytes ≤ 0
    · simp [h1]
    · by_cases h2 : c.MaxFiles ≤ 0
      · simp [h1, h2]
      · by_cases h3 : c.CleanupSleep ≤ 0
        · simp [h1, h2, h3]
        · simp [h1, h2, h3]
  · unfold DiskCache.Start
    by_cases h1 : c.MaxBytes ≤ 0
    · simp [h1]
    · by_cases h2 : c.MaxFiles ≤ 0
      · simp [h1, h2]
      · by_cases h3 : c.CleanupSleep ≤ 0
        · simp [h1, h2, h3]
        · simp [h1, h2, h3]
  · rintro ⟨h1, h2, h3⟩
    simp [DiskCache.Start, not_le.mpr h1, not_le.mpr h2, not_le.mpr h3]
  · intro dir
    have hb : ((1 : Int) <<< 20) = 1048576 := by decide
    have hs : (60 : Int) * Second = 60 * 1000000000 := by decide
    refine ⟨hb, rfl, hs, rfl, ?_, ?_⟩
    · simp [DiskCache.Start, NewDiskCache, Second]
    · simp [DiskCache.Start, NewDiskCache, Second]

/-- C7, as the claim words it, fails in three ways, each time on `a` written
at 5 s and `b` at 10.0 s.  First, `Get(a)` succeeds at 10.5 s, later than the
modification time of `b`: the two files tie in whole seconds, the sort leaves
`a` first, and with room for one file the pass deletes `a`, the entry that was
read, and keeps `b`.  Second, `Get(a)` succeeds at 20 s but the system refuses
its `os.Chtimes`, whose error `Get` drops: `a` keeps its time of 5 s and is
deleted while `b` stays.  Third, `Get(a)` refreshes `a` at 20 s, the byte budget
forces both files out and the system refuses the removal of `b`: `a` is deleted
and the untouched `b` is not. -/
theorem read_refresh_protects_counterexample :
    (FlatDir [("a", .file [1] ⟨5000000000⟩), ("b", .file [2] ⟨10000000000⟩)] ∧
      (DiskCache.Get ⟨"/tmp", 1048576, 1, 1, none⟩ false [("a", .file [1] ⟨5000000000⟩), ("b", .file [2] ⟨10000000000⟩)] ⟨10500000000⟩ "a").err = none ∧
      modTimeOf (DiskCache.Get ⟨"/tmp", 1048576, 1, 1, none⟩ false [("a", .file [1] ⟨5000000000⟩), ("b", .file [2] ⟨10000000000⟩)] ⟨10500000000⟩ "a").fs "a"
        = some ⟨10500000000⟩ ∧
      modTimeOf [("a", .file [1] ⟨5000000000⟩), ("b", .file [2] ⟨10000000000⟩)] "b" = some ⟨10000000000⟩ ∧
      Time.After ⟨10500000000⟩ ⟨10000000000⟩ ∧
      IsSortOf
        (insertionSort (Walk (DiskCache.Get ⟨"/tmp", 1048576, 1, 1, none⟩ false [("a", .file [1] ⟨5000000000⟩), ("b", .file [2] ⟨10000000000⟩)] ⟨10500000000⟩ "a").fs walkFn []).1)
        (Walk (DiskCache.Get ⟨"/tmp", 1048576, 1, 1, none⟩ false [("a", .file [1] ⟨5000000000⟩), ("b", .file [2] ⟨10000000000⟩)] ⟨10500000000⟩ "a").fs walkFn []).1 ∧
      present (DiskCache.cleanup ⟨"/tmp", 1048576, 1, 1, none⟩ insertionSort (fun _ => false)
        (DiskCache.Get ⟨"/tmp", 1048576, 1, 1, none⟩ false [("a", .file [1] ⟨5000000000⟩), ("b", .file [2] ⟨10000000000⟩)] ⟨10500000000⟩ "a").fs).fs "a" = false ∧
      present (DiskCache.cleanup ⟨"/tmp", 1048576, 1, 1, none⟩ insertionSort (fun _ => false)
        (DiskCache.Get ⟨"/tmp", 1048576, 1, 1, none⟩ false [("a", .file [1] ⟨5000000000⟩), ("b", .file [2] ⟨10000000000⟩)] ⟨10500000000⟩ "a").fs).fs "b" = true) ∧
    ((DiskCache.Get ⟨"/tmp", 1048576, 1, 1, none⟩ true [("a", .file [1] ⟨5000000000⟩), ("b", .file [2] ⟨10000000000⟩)] ⟨20000000000⟩ "a").err = none ∧
      (DiskCache.Get ⟨"/tmp", 1048576, 1, 1, none⟩ true [("a", .file [1] ⟨5000000000⟩), ("b", .file [2] ⟨10000000000⟩)] ⟨20000000000⟩ "a").data = some [1] ∧
      modTimeOf (DiskCache.Get ⟨"/tmp", 1048576, 1, 1, none⟩ true [("a", .file [1] ⟨5000000000⟩), ("b", .file [2] ⟨10000000000⟩)] ⟨20000000000⟩ "a").fs "a"
        = some ⟨5000000000⟩ ∧
      present (DiskCache.cleanup ⟨"/tmp", 1048576, 1, 1, none⟩ insertionSort (fun _ => false)
        (DiskCache.Get ⟨"/tmp", 1048576, 1, 1, none⟩ true [("a", .file [1] ⟨5000000000⟩), ("b", .file [2] ⟨10000000000⟩)] ⟨20000000000⟩ "a").fs).fs "a" = false ∧
      present (DiskCache.cleanup ⟨"/tmp", 1048576, 1, 1, none⟩ insertionSort (fun _ => false)
        (DiskCache.Get ⟨"/tmp", 1048576, 1, 1, none⟩ true [("a", .file [1] ⟨5000000000⟩), ("b", .file [2] ⟨10000000000⟩)] ⟨20000000000⟩ "a").fs).fs "b" = true) ∧
    (FlatDir [("a", .file [1, 1] ⟨5000000000⟩), ("b", .file [2] ⟨10000000000⟩)] ∧
      (DiskCache.Get ⟨"/tmp", 1, 5, 1, none⟩ false [("a", .file [1, 1] ⟨5000000000⟩), ("b", .file [2] ⟨10000000000⟩)] ⟨20000000000⟩ "a").err = none ∧
      modTimeOf (DiskCache.Get ⟨"/tmp", 1, 5, 1, none⟩ false [("a", .file [1, 1] ⟨5000000000⟩), ("b", .file [2] ⟨10000000000⟩)] ⟨20000000000⟩ "a").fs "a"
        = some ⟨20000000000⟩ ∧
      (DiskCache.cleanup ⟨"/tmp", 1, 5, 1, none⟩ insertionSort (fun p => decide (p = "b"))
        (DiskCache.Get ⟨"/tmp", 1, 5, 1, none⟩ false [("a", .file [1, 1] ⟨5000000000⟩), ("b", .file [2] ⟨10000000000⟩)] ⟨20000000000⟩ "a").fs).attempts.map FData.Path
        = ["b", "a"] ∧
      present (DiskCache.cleanup ⟨"/tmp", 1, 5, 1, none⟩ insertionSort (fun p => decide (p = "b"))
        (DiskCache.Get ⟨"/tmp", 1, 5, 1, none⟩ false [("a", .file [1, 1] ⟨5000000000⟩), ("b", .file [2] ⟨10000000000⟩)] ⟨20000000000⟩ "a").fs).fs "a" = false ∧
      present (DiskCache.cleanup ⟨"/tmp", 1, 5, 1, none⟩ insertionSort (fun p => decide (p = "b"))
        (DiskCache.Get ⟨"/tmp", 1, 5, 1, none⟩ false [("a", .file [1, 1] ⟨5000000000⟩), ("b", .file [2] ⟨10000000000⟩)] ⟨20000000000⟩ "a").fs).fs "b" = true) := by
  refine ⟨⟨by decide, by decide, by decide, by decide, by decide, by decide, by decide,
      by decide⟩,
    ⟨by decide, by decide, by decide, by decide, by decide⟩,
    ⟨by decide, by decide, by decide, by decide, by decide, by decide⟩⟩

/-- C7, amended (a read refreshes, to the second): in every flat cache
directory (distinct plain names, regular files and empty subdirectories), if
`Get(e)` succeeds and the system accepts its `os.Chtimes`, at a time whose whole
second (`Unix()`) is later than the whole second of the modification time of
every other file, and the next `cleanup` pass runs on the state that `Get`
left, then `e` is last in the sorted listing, with the time of the read as its
modification time; the pass calls `os.Remove` on `e` only if it calls it on
every file of the directory; and when the system refuses no removal, `e` is
deleted only if every file of the directory is deleted. -/
theorem read_refresh_protects (c : DiskCache) (sort : FDataList → FDataList)
    (chFails : Bool) (fs : FS) (now : Time) (e : String)
    (hfd : FlatDir fs)
    (hget : (c.Get chFails fs now e).err = none)
    (hch : (Chtimes chFails fs e now).2 = none)
    (hlater : ∀ n d t, n ≠ e → stat fs n = some (.file d t) → t.Unix < now.Unix)
    (hsort : IsSortOf (sort (Walk (c.Get chFails fs now e).fs walkFn []).1)
      (Walk (c.Get chFails fs now e).fs walkFn []).1) :
    (∃ d, (c.Get chFails fs now e).data = some d ∧
      (sort (Walk (c.Get chFails fs now e).fs walkFn []).1).getLast?
        = some ⟨e, now, (d.length : Int)⟩) ∧
    (∀ rmFails : String → Bool,
      e ∈ (c.cleanup sort rmFails (c.Get chFails fs now e).fs).attempts.map FData.Path →
      ∀ n, IsFile fs n →
        n ∈ (c.cleanup sort rmFails (c.Get chFails fs now e).fs).attempts.map FData.Path) ∧
    (stat (c.cleanup sort (fun _ => false) (c.Get chFails fs now e).fs).fs e = none →
      ∀ n, IsFile fs n →
        stat (c.cleanup sort (fun _ => false) (c.Get chFails fs now e).fs).fs n = none) := by
  have hcf : chFails = false := by
    cases chFails
    · rfl
    · simp [Chtimes] at hch
  subst hcf
  obtain ⟨d, hread, hdata⟩ :
      ∃ d, ReadFile fs e = .ok d ∧ (c.Get false fs now e).data = some d := by
    rw [Get_eq] at hget ⊢
    cases h : ReadFile fs e with
    | error err => simp [h] at hget
    | ok b => exact ⟨b, rfl, rfl⟩
  obtain ⟨hmem, hclass, hothers⟩ := listing_after_Get c fs now e d hfd hread hlater
  have hfdG : FlatDir (c.Get false fs now e).fs := by
    rw [Get_fs]; exact Chtimes_FlatDir false fs e now hfd
  have hstatG : stat (c.Get false fs now e).fs e = some (.file d now) := by
    obtain ⟨t0, hst⟩ := ReadFile_ok fs e d hread
    rw [Get_fs, stat_Chtimes_self, hst]; rfl
  have hstat := stat_cleanup c sort (c.Get false fs now e).fs hfdG
  obtain ⟨hperm, hsorted⟩ := hsort
  have hatt : ∀ rmFails : String → Bool,
      (c.cleanup sort rmFails (c.Get false fs now e).fs).attempts
      = (sort (Walk (c.Get false fs now e).fs walkFn []).1).take
          (evictCount c (sort (Walk (c.Get false fs now e).fs walkFn []).1)
            (wrap64 (sumSize (sort (Walk (c.Get false fs now e).fs walkFn []).1)))
            (sort (Walk (c.Get false fs now e).fs walkFn []).1).length) := by
    intro rmFails
    rw [cleanup_eq_sweep]
    exact (sweep_attempts c sort rmFails _ _).1
  generalize (c.Get false fs now e).fs = G at *
  generalize (Walk G walkFn []).1 = L at *
  have hpair := hsorted.pairwise
  have hattempt : ∀ rmFails : String → Bool,
      e ∈ (c.cleanup sort rmFails G).attempts.map FData.Path →
      ∀ n, IsFile fs n → n ∈ (c.cleanup sort rmFails G).attempts.map FData.Path := by
    intro rmFails he n hfile
    rw [hatt rmFails] at he ⊢
    obtain ⟨a, ha, hap⟩ := List.mem_map.mp he
    have haeq : a = ⟨e, now, (d.length : Int)⟩ := by
      rcases hclass a (hperm.subset (List.mem_of_mem_take ha)) with heq | ⟨hne, -⟩
      · exact heq
      · exact absurd hap hne
    by_cases hn : n = e
    · subst hn; exact he
    · obtain ⟨y, hy, hyp⟩ := hothers n hn hfile
      have hyS : y ∈ sort L := hperm.symm.subset hy
      rw [← List.take_append_drop
        (evictCount c (sort L) (wrap64 (sumSize (sort L))) (sort L).length) (sort L),
        List.mem_append] at hyS
      rcases hyS with hyt | hyd
      · exact List.mem_map.mpr ⟨y, hyt, hyp⟩
      · exfalso
        have hle := sorted_take_le_drop hsorted _ a ha y hyd
        rcases hclass y hy with heq | ⟨-, hlt⟩
        · rw [heq] at hyp
          exact hn hyp.symm
        · rw [haeq] at hle
          exact absurd hlt (not_lt.mpr hle)
  refine ⟨⟨d, hdata, ?_⟩, hattempt, ?_⟩
  · have hmemS : (⟨e, now, (d.length : Int)⟩ : FData) ∈ sort L := hperm.symm.subset hmem
    obtain ⟨i, hi, hgi⟩ := List.mem_iff_getElem.mp hmemS
    have hlast : (sort L).length - 1 < (sort L).length := by omega
    rw [List.getLast?_eq_getElem?, List.getElem?_eq_getElem hlast]
    congr 1
    rcases hclass _ (hperm.subset (List.getElem_mem hlast)) with heq | ⟨-, hlt⟩
    · exact heq
    · exfalso
      rcases Nat.lt_or_ge i ((sort L).length - 1) with hil | hil
      · have := (List.pairwise_iff_getElem.mp hpair) i ((sort L).length - 1) hi hlast hil
        rw [hgi] at this
        exact this hlt
      · have hieq : i = (sort L).length - 1 := by omega
        subst hieq
        rw [hgi] at hlt
        exact lt_irrefl _ hlt
  · intro hgone n hfile
    have hein : e ∈ (c.cleanup sort (fun _ => false) G).attempts.map FData.Path := by
      by_contra hnot
      rw [hstat e] at hgone
      simp [hnot, hstatG] at hgone
    rw [hstat n]
    simp [hattempt _ hein n hfile]


/-- Witness of the amended C7: `a` was written first and is read at 11.5 s,
with `b` last modified at 10.0 s; `a` is last in the sorted listing, and with
room for one file the pass deletes `b` and keeps `a`. -/
theorem read_refresh_protects_witness :
    (∃ d, (DiskCache.Get ⟨"/tmp", 1048576, 1, 1, none⟩ false [("a", .file [1] ⟨5000000000⟩), ("b", .file [2] ⟨10000000000⟩)] ⟨11500000000⟩ "a").data = some d ∧
      (insertionSort (Walk (DiskCache.Get ⟨"/tmp", 1048576, 1, 1, none⟩ false [("a", .file [1] ⟨5000000000⟩), ("b", .file [2] ⟨10000000000⟩)] ⟨11500000000⟩ "a").fs walkFn []).1).getLast?
        = some ⟨"a", ⟨11500000000⟩, (d.length : Int)⟩) ∧
    present (DiskCache.cleanup ⟨"/tmp", 1048576, 1, 1, none⟩ insertionSort (fun _ => false)
      (DiskCache.Get ⟨"/tmp", 1048576, 1, 1, none⟩ false [("a", .file [1] ⟨5000000000⟩), ("b", .file [2] ⟨10000000000⟩)] ⟨11500000000⟩ "a").fs).fs "b" = false ∧
    present (DiskCache.cleanup ⟨"/tmp", 1048576, 1, 1, none⟩ insertionSort (fun _ => false)
      (DiskCache.Get ⟨"/tmp", 1048576, 1, 1, none⟩ false [("a", .file [1] ⟨5000000000⟩), ("b", .file [2] ⟨10000000000⟩)] ⟨11500000000⟩ "a").fs).fs "a" = true :=
  ⟨(read_refresh_protects ⟨"/tmp", 1048576, 1, 1, none⟩ insertionSort false [("a", .file [1] ⟨5000000000⟩), ("b", .file [2] ⟨10000000000⟩)] ⟨11500000000⟩ "a"
      (by decide) (by decide) (by decide)
      (by
        intro n d t hn hs
        by_cases hb : n = "b"
        · subst hb
          have ht : t = ⟨10000000000⟩ := by
            simp [stat] at hs
            exact hs.2.symm
          subst ht
          decide
        · simp [stat, hb, Ne.symm hn] at hs
          exact absurd hs.1.symm hb)
      (by decide)).1,
    by decide, by decide⟩

/-- C8 (failed deletions do not change the decisions of the sweep): for every
listing, directory and configuration, the sequence of entries on which the pass
calls `os.Remove` is the same whichever of those calls fail, because the
running size and count are decremented at every call; and `cleanup` returns a
nil error in every case. -/
theorem remove_failures_ignored (c : DiskCache) (sort : FDataList → FDataList)
    (rm1 rm2 : String → Bool) (files : FDataList) (fs fs1 fs2 : FS) :
    (c.sweep sort rm1 files fs1).attempts = (c.sweep sort rm2 files fs2).attempts ∧
    (c.sweep sort rm1 files fs1).attempts
      = (sort files).take
          (evictCount c (sort files) (FDataList.TotalSize (sort files)) (sort files).length) ∧
    (c.cleanup sort rm1 fs).attempts = (c.cleanup sort rm2 fs).attempts ∧
    (c.cleanup sort rm1 fs).err = none := by
  refine ⟨?_, ?_, ?_, ?_⟩
  · rw [(sweep_attempts c sort rm1 files fs1).1, (sweep_attempts c sort rm2 files fs2).1]
  · rw [(sweep_attempts c sort rm1 files fs1).1, TotalSize_eq]
  · unfold DiskCache.cleanup
    rcases Walk fs walkFn [] with ⟨l, _ | e⟩
    · simp only
      rw [(sweep_attempts c sort rm1 l fs).1, (sweep_attempts c sort rm2 l fs).1]
    · rfl
  · unfold DiskCache.cleanup
    rcases Walk fs walkFn [] with ⟨l, _ | e⟩
    · exact (sweep_attempts c sort rm1 l fs).2
    · rfl

/-- C9 (an oversized entry never survives a sweep) is broken by the code on a
listing of a file of 2^63 - 1 bytes and a file of one byte, both of
non-negative size, under the default configuration, in a pass whose deletions
all succeed: `TotalSize` wraps to -2^63 in its `int64`, the test
`s > c.MaxBytes` is false at the first entry, the pass removes nothing, and the
file that alone exceeds `MaxBytes` survives. -/
theorem oversized_survives_on_overflow :
    (NewDiskCache "/tmp").Start.err = none ∧
    IsSortOf (insertionSort [⟨"big", ⟨1000000000⟩, 9223372036854775807⟩, ⟨"one", ⟨2000000000⟩, 1⟩]) [⟨"big", ⟨1000000000⟩, 9223372036854775807⟩, ⟨"one", ⟨2000000000⟩, 1⟩] ∧
    (∀ f ∈ ([⟨"big", ⟨1000000000⟩, 9223372036854775807⟩, ⟨"one", ⟨2000000000⟩, 1⟩] : FDataList), 0 ≤ f.Size) ∧
    FDataList.TotalSize (insertionSort [⟨"big", ⟨1000000000⟩, 9223372036854775807⟩, ⟨"one", ⟨2000000000⟩, 1⟩]) = -9223372036854775808 ∧
    ((NewDiskCache "/tmp").sweep insertionSort (fun _ => false) [⟨"big", ⟨1000000000⟩, 9223372036854775807⟩, ⟨"one", ⟨2000000000⟩, 1⟩] []).attempts = [] ∧
    keptOf (insertionSort [⟨"big", ⟨1000000000⟩, 9223372036854775807⟩, ⟨"one", ⟨2000000000⟩, 1⟩])
      ((NewDiskCache "/tmp").sweep insertionSort (fun _ => false) [⟨"big", ⟨1000000000⟩, 9223372036854775807⟩, ⟨"one", ⟨2000000000⟩, 1⟩] []).attempts = [⟨"big", ⟨1000000000⟩, 9223372036854775807⟩, ⟨"one", ⟨2000000000⟩, 1⟩] ∧
    ¬ (∀ b ∈ keptOf (insertionSort [⟨"big", ⟨1000000000⟩, 9223372036854775807⟩, ⟨"one", ⟨2000000000⟩, 1⟩])
        ((NewDiskCache "/tmp").sweep insertionSort (fun _ => false) [⟨"big", ⟨1000000000⟩, 9223372036854775807⟩, ⟨"one", ⟨2000000000⟩, 1⟩] []).attempts,
        b.Size ≤ (NewDiskCache "/tmp").MaxBytes) := by
  refine ⟨by decide, by decide, by decide, by decide, by decide, by decide, by decide⟩

/-- C10 (frame of the store): for two distinct plain file names `k` and `kk`,
neither `Set(k, v)` nor `Get(k)` changes the entry of `kk` (so a `Get(kk)`
returns the same result before and after); `Get(k)` changes neither what can be
read under `k` nor the presence of any entry, and leaves every entry other than
`k` as it was: it changes at most the modification time of `k`. -/
theorem store_frame (c : DiskCache) (chFails : Bool) (fs : FS) (now : Time) (k kk : String)
    (v : Bytes) (_hk : PlainName k) (_hkk : PlainName kk) (hne : k ≠ kk) :
    stat (c.Set fs now k v).fs kk = stat fs kk ∧
    stat (c.Get chFails fs now k).fs kk = stat fs kk ∧
    (∀ t cf, (c.Get cf (c.Set fs now k v).fs t kk).data = (c.Get cf fs t kk).data ∧
          (c.Get cf (c.Set fs now k v).fs t kk).err = (c.Get cf fs t kk).err) ∧
    (∀ t cf, (c.Get cf (c.Get chFails fs now k).fs t kk).data = (c.Get cf fs t kk).data ∧
          (c.Get cf (c.Get chFails fs now k).fs t kk).err = (c.Get cf fs t kk).err) ∧
    ReadFile (c.Get chFails fs now k).fs k = ReadFile fs k ∧
    (stat fs k = none → stat (c.Get chFails fs now k).fs k = none) ∧
    (∀ n, stat (c.Get chFails fs now k).fs n = stat fs n ∨
          ∃ x, n = k ∧ stat fs n = some x ∧
            stat (c.Get chFails fs now k).fs n = some (x.touch now)) := by
  have hGetfs : (c.Get chFails fs now k).fs = (Chtimes chFails fs k now).1 := Get_fs _ _ _ _ _
  have hSetfs : (c.Set fs now k v).fs = (WriteFile fs now k v).1 := rfl
  have hs1 : stat (c.Set fs now k v).fs kk = stat fs kk := by
    rw [hSetfs]; exact stat_WriteFile_other fs now k kk v hne
  have hs2 : stat (c.Get chFails fs now k).fs kk = stat fs kk := by
    rw [hGetfs]; exact stat_Chtimes_other chFails fs k kk now hne
  refine ⟨hs1, hs2, ?_, ?_, ?_, ?_, ?_⟩
  · intro t cf
    rw [Get_eq c cf _ t kk, Get_eq c cf fs t kk, ReadFile_congr _ _ _ hs1]
    cases ReadFile fs kk <;> exact ⟨rfl, rfl⟩
  · intro t cf
    rw [Get_eq c cf _ t kk, Get_eq c cf fs t kk, ReadFile_congr _ _ _ hs2]
    cases ReadFile fs kk <;> exact ⟨rfl, rfl⟩
  · rw [hGetfs]; exact ReadFile_Chtimes_self chFails fs k now
  · intro h
    rw [hGetfs, stat_Chtimes_self, h]
    cases chFails <;> rfl
  · intro n
    rw [hGetfs]
    by_cases hn : k = n
    · subst hn
      rw [stat_Chtimes_self]
      cases chFails
      · cases h : stat fs k with
        | none => left; rfl
        | some x => right; exact ⟨x, rfl, rfl, rfl⟩
      · left; rfl
    · left; exact stat_Chtimes_other chFails fs k n now hn

/-- Witness of C10: writing `a` and reading `a` leave `b` alone. -/
theorem store_frame_witness :
    PlainName "a" ∧ PlainName "b" ∧
    stat ((NewDiskCache "/tmp").Set [("b", .file [1] ⟨1⟩)] ⟨2⟩ "a" [9]).fs "b"
      = stat [("b", .file [1] ⟨1⟩)] "b" ∧
    stat ((NewDiskCache "/tmp").Get false [("b", .file [1] ⟨1⟩)] ⟨2⟩ "a").fs "a" = none :=
  ⟨by decide, by decide,
    (store_frame (NewDiskCache "/tmp") false [("b", .file [1] ⟨1⟩)] ⟨2⟩ "a" "b" [9]
      (by decide) (by decide) (by decide)).1,
    (store_frame (NewDiskCache "/tmp") false [("b", .file [1] ⟨1⟩)] ⟨2⟩ "a" "b" [9]
      (by decide) (by decide) (by decide)).2.2.2.2.2.1 rfl⟩


end diskcache
